import Mathlib

/-!
Verification development for the Doxygen symbol-index and call-graph query
engine of `skills/doxygen-generator/scripts/query.py`.

The Python source is shallowly embedded: each relevant Python function is
translated into an executable Lean definition over explicit data
(parsed XML fixtures, SQLite tables modelled as lists of rows, traversal
state passed explicitly).  Machine integers do not overflow in the source
(line numbers and counts), so `Nat` is used.  Python string operations are
modelled over `String.data` (the underlying character list) so that all
definitions evaluate inside the kernel.
-/

/-- Character comparison by code point, as Python compares characters. -/
def charLtB (a b : Char) : Bool := a.toNat < b.toNat

/-- Lexicographic comparison of character lists, as Python compares strings. -/
def charListLt : List Char → List Char → Bool
  | [], [] => false
  | [], _ :: _ => true
  | _ :: _, [] => false
  | a :: as, b :: bs =>
    if charLtB a b then true
    else if charLtB b a then false
    else charListLt as bs

/-- Python `a < b` on strings (code-point lexicographic). -/
def strLt (a b : String) : Bool := charListLt a.data b.data

/-- Python `a <= b` on strings. -/
def strLe (a b : String) : Bool := strLt a b || decide (a = b)

/-- Python `needle in hay` substring test, over character lists. -/
def charListInfix : List Char → List Char → Bool
  | needle, [] => needle.isEmpty
  | needle, h :: t => needle.isPrefixOf (h :: t) || charListInfix needle t

/-- Python `needle in hay` on strings (substring containment). -/
def strContains (hay needle : String) : Bool := charListInfix needle.data hay.data

/-- Python `s.startswith(pre)`. -/
def strStarts (s pre : String) : Bool := pre.data.isPrefixOf s.data

/-- ASCII lowercasing of one character (SQLite `LIKE` folds only ASCII). -/
def asciiLowerChar (c : Char) : Char :=
  if 65 ≤ c.toNat ∧ c.toNat ≤ 90 then Char.ofNat (c.toNat + 32) else c

/-- ASCII lowercasing of a string. -/
def asciiLower (s : String) : String := ⟨s.data.map asciiLowerChar⟩

/-- Sort a list of strings ascending, as Python `sorted` on strings. -/
def sortStrings (l : List String) : List String :=
  l.insertionSort (fun a b => strLe a b = true)

/-- First-occurrence deduplication (models Python `set`/`dict` iteration in
index-scan order; `query.py` relies only on the set of elements). -/
def dedupFirstAux (seen : List String) : List String → List String
  | [] => []
  | x :: xs => if x ∈ seen then dedupFirstAux seen xs else x :: dedupFirstAux (x :: seen) xs

/-- First-occurrence deduplication of a list of strings. -/
def dedupFirst (l : List String) : List String := dedupFirstAux [] l

/-- One Doxygen-documented symbol, mirroring the `SymbolInfo` dataclass of
`query.py` (all defaults as in the source). -/
structure SymbolInfo where
  id : String := ""
  name : String := ""
  kind : String := ""
  file : String := ""
  line : Nat := 0
  body_start : Nat := 0
  body_end : Nat := 0
  return_type : String := ""
  params : String := ""
  brief : String := ""
  detailed : String := ""
  references : List String := []
  referenced_by : List String := []
  deriving DecidableEq

/-- Pagination metadata produced by `_paginate` in `query.py`. -/
structure PageMeta where
  total : Nat
  offset : Nat
  limit : Nat
  truncated : Bool
  hint : Option String
  deriving DecidableEq

/-- Embedding of `_paginate(items, limit, offset)` from `query.py`:
`page = items[offset:offset+limit] if limit > 0 else items[offset:]`,
`truncated = (offset + len(page)) < total`, plus the textual hint. -/
def paginate {α : Type} (items : List α) (limit offset : Nat) : List α × PageMeta :=
  let total := items.length
  let page := if 0 < limit then (items.drop offset).take limit else items.drop offset
  let truncated := decide (offset + page.length < total)
  if truncated then
    let nextOffset := offset + limit
    let remaining := total - nextOffset
    (page, { total := total, offset := offset, limit := limit, truncated := truncated,
             hint := some ("Use --offset " ++ toString nextOffset ++ " to see next "
               ++ toString (min remaining limit) ++ " of "
               ++ toString remaining ++ " remaining results.") })
  else
    (page, { total := total, offset := offset, limit := limit, truncated := truncated,
             hint := none })

/-- The round-trip driver of the pagination claim: repeatedly call `paginate`
at offsets `0, L, 2*L, ...`, concatenating pages, stopping at the first page
whose metadata reports `truncated = false`.  `fuel` bounds the recursion and
is irrelevant once large enough. -/
def collectPages {α : Type} (items : List α) (limit : Nat) : Nat → Nat → List α
  | 0, _ => []
  | fuel + 1, offset =>
    let pm := paginate items limit offset
    if pm.2.truncated then pm.1 ++ collectPages items limit fuel (offset + limit)
    else pm.1

theorem paginate_page_eq {α : Type} (items : List α) (L offset : Nat) (h0 : 0 < L) :
    (paginate items L offset).1 = (items.drop offset).take L := by
  simp only [paginate, h0, if_true]
  split <;> rfl

theorem paginate_truncated_eq {α : Type} (items : List α) (L offset : Nat) (h0 : 0 < L) :
    (paginate items L offset).2.truncated
      = decide (offset + ((items.drop offset).take L).length < items.length) := by
  simp only [paginate, h0, if_true]
  split <;> rfl

theorem paginate_truncated_iff {α : Type} (items : List α) (L offset : Nat) (hL : 1 ≤ L) :
    (paginate items L offset).2.truncated = true ↔ offset + L < items.length := by
  rw [paginate_truncated_eq items L offset hL, decide_eq_true_eq]
  have hlen : ((items.drop offset).take L).length = min L (items.length - offset) := by
    simp [List.length_take, List.length_drop]
  rw [hlen]
  omega

theorem collectPages_drop {α : Type} (items : List α) (L : Nat) (hL : 1 ≤ L) :
    ∀ fuel offset, items.length ≤ offset + fuel * L →
      collectPages items L fuel offset = items.drop offset := by
  intro fuel
  induction fuel with
  | zero =>
    intro offset h
    simp only [Nat.zero_mul, Nat.add_zero] at h
    simp [collectPages, (List.drop_eq_nil_iff).2 h]
  | succ n ih =>
    intro offset h
    by_cases ht : (paginate items L offset).2.truncated = true
    · have hlt : offset + L < items.length := (paginate_truncated_iff items L offset hL).1 ht
      have hrec := ih (offset + L) (by
        have hmul : (n + 1) * L = L + n * L := by ring
        omega)
      simp only [collectPages, ht, if_true, paginate_page_eq items L offset hL, hrec]
      conv_rhs => rw [← List.take_append_drop L (items.drop offset)]
      congr 1
      rw [List.drop_drop, Nat.add_comm]
    · simp only [collectPages, ht, if_false, paginate_page_eq items L offset hL]
      have hnlt : ¬ offset + L < items.length := fun hc =>
        ht ((paginate_truncated_iff items L offset hL).2 hc)
      have : (items.drop offset).length ≤ L := by
        simp only [List.length_drop]; omega
      exact List.take_of_length_le this

/-- C4: for every list and every limit `L ≥ 1`, concatenating the successive
pages produced by `_paginate` at offsets `0, L, 2*L, ...` until the returned
metadata reports `truncated = false` reproduces the full list exactly (no
duplicates, no gaps), and every page's `meta.total` equals the length of the
full list. -/
theorem paginate_roundtrip {α : Type} (items : List α) (L : Nat) (hL : 1 ≤ L) :
    collectPages items L (items.length + 1) 0 = items ∧
    ∀ limit offset : Nat, ((paginate items limit offset).2).total = items.length := by
  constructor
  · have hfuel : items.length ≤ 0 + (items.length + 1) * L := by
      have := Nat.le_mul_of_pos_right (items.length + 1) (show 0 < L from hL)
      omega
    simpa using collectPages_drop items L hL (items.length + 1) 0 hfuel
  · intro limit offset
    simp only [paginate]
    split <;> (split <;> rfl)

/-- Witness for `paginate_roundtrip` at a concrete list and limit. -/
theorem paginate_roundtrip_witness :
    collectPages [10, 20, 30] 2 4 0 = [10, 20, 30] ∧
    ((paginate [10, 20, 30] 2 2).2).total = 3 :=
  ⟨(paginate_roundtrip [10, 20, 30] 2 (by decide)).1,
   (paginate_roundtrip [10, 20, 30] 2 (by decide)).2 2 2⟩

/-- Traversal direction of `build_callgraph` (`'calls'`, `'callers'`, `'both'`). -/
inductive Direction where
  | calls
  | callers
  | both
  deriving DecidableEq

/-- One node of the call-graph tree built by `_traverse` in `query.py`.
`info` is `some (kind, file, line)` exactly when the Python dict carries the
`kind`/`file`/`line` keys; `cycle` is the `cycle: True` marker. -/
inductive CGNode where
  | node (name : String) (info : Option (String × String × Nat)) (cycle : Bool)
      (calls : List CGNode) (callers : List CGNode)

/-- Name of a call-graph node. -/
def CGNode.name : CGNode → String
  | .node n _ _ _ _ => n

/-- Outgoing-call children of a call-graph node. -/
def CGNode.calls : CGNode → List CGNode
  | .node _ _ _ cs _ => cs

/-- Incoming-caller children of a call-graph node. -/
def CGNode.callers : CGNode → List CGNode
  | .node _ _ _ _ rs => rs

/-- Cycle-marker flag of a call-graph node. -/
def CGNode.cycle : CGNode → Bool
  | .node _ _ c _ _ => c

/-- The `kind/file/line` payload of a call-graph node (`none` on bare leaves). -/
def CGNode.info : CGNode → Option (String × String × Nat)
  | .node _ i _ _ _ => i

/-- The bare node `{"name": fname, "calls": [], "callers": []}`. -/
def bareNode (n : String) : CGNode := CGNode.node n none false [] []

/-- The cycle marker `{"name": ref, "calls": [], "callers": [], "cycle": True}`. -/
def cycleNode (n : String) : CGNode := CGNode.node n none true [] []

/-- Parameters of one `build_callgraph` invocation.  `lookup` is the backend's
`find_symbol(name)` (both backends pass `self.find_symbol`); `maxNodes = 0`
means unlimited, as in the source. -/
structure CGCfg where
  lookup : String → List SymbolInfo
  maxNodes : Nat
  excludeKinds : List String
  direction : Direction

/-- The shared mutable traversal state of `_traverse`: the `visited` set and
the `node_count` cell. -/
structure TravSt where
  visited : List String
  count : Nat
  deriving DecidableEq

/-- Python `max_nodes > 0 and node_count[0] >= max_nodes`. -/
def budgetHit (cfg : CGCfg) (st : TravSt) : Bool :=
  decide (0 < cfg.maxNodes ∧ cfg.maxNodes ≤ st.count)

/-- The per-edge loop body of `_traverse`: iterate over `references` (or
`referenced_by`), breaking when the node budget is hit, emitting a cycle
marker for already-visited names and recursing otherwise.  `rec` is the
recursive call `_traverse(ref, d - 1, dir_)`. -/
def childLoop (cfg : CGCfg) (rec : String → TravSt → CGNode × TravSt) :
    List String → TravSt → List CGNode × TravSt
  | [], st => ([], st)
  | r :: rest, st =>
    if budgetHit cfg st then ([], st)
    else
      let step := if r ∈ st.visited then (cycleNode r, st) else rec r st
      let tail := childLoop cfg rec rest step.2
      (step.1 :: tail.1, tail.2)

/-- Embedding of `_traverse(fname, d, dir_)` from `build_callgraph` (identical
in both backends).  Depth is `Nat`: the Python guard `d <= 0` is the `0` case. -/
def cgTraverse (cfg : CGCfg) : Nat → String → TravSt → CGNode × TravSt
  | 0, fname, st => (bareNode fname, st)
  | d + 1, fname, st =>
    if fname ∈ st.visited then (bareNode fname, st)
    else if budgetHit cfg st then (bareNode fname, st)
    else
      let st1 : TravSt := ⟨fname :: st.visited, st.count + 1⟩
      match cfg.lookup fname with
      | [] => (bareNode fname, st1)
      | sym :: _ =>
        if sym.kind ∈ cfg.excludeKinds then (bareNode fname, st1)
        else
          let cs := if cfg.direction ≠ Direction.callers then
              childLoop cfg (fun r s => cgTraverse cfg d r s) sym.references st1
            else ([], st1)
          let rs := if cfg.direction ≠ Direction.calls then
              childLoop cfg (fun r s => cgTraverse cfg d r s) sym.referenced_by cs.2
            else ([], cs.2)
          (CGNode.node fname (some (sym.kind, sym.file, sym.line)) false cs.1 rs.1, rs.2)

/-- The `_meta` dict attached to a call-graph result. -/
structure CGMeta where
  total_nodes : Nat
  max_nodes : Nat
  truncated : Bool
  hint : Option String
  deriving DecidableEq

/-- Embedding of `build_callgraph(name, depth, direction, max_nodes,
exclude_kinds)` (identical in `DoxygenXMLIndex` and `DoxygenSQLiteIndex`). -/
def buildCallgraph (cfg : CGCfg) (name : String) (depth : Nat) : CGNode × CGMeta :=
  let r := cgTraverse cfg depth name ⟨[], 0⟩
  let truncated : Bool := decide (0 < cfg.maxNodes ∧ cfg.maxNodes ≤ r.2.count)
  let n := cfg.maxNodes
  (r.1,
   { total_nodes := r.2.count, max_nodes := n, truncated := truncated,
     hint := if truncated then
         some ("Graph truncated at " ++ toString n ++ " nodes. Use --max-nodes "
           ++ toString (n * 2) ++ " to see more.")
       else none })

theorem childLoop_count_mono (cfg : CGCfg) (rec : String → TravSt → CGNode × TravSt)
    (hrec : ∀ x st, st.count ≤ (rec x st).2.count) :
    ∀ refs st, st.count ≤ (childLoop cfg rec refs st).2.count := by
  intro refs
  induction refs with
  | nil => intro st; simp [childLoop]
  | cons r rest ih =>
    intro st
    simp only [childLoop]
    split
    · exact Nat.le_refl _
    · by_cases hv : r ∈ st.visited
      · simpa [hv] using ih st
      · simp only [hv, if_false]
        exact Nat.le_trans (hrec r st) (ih _)

theorem cgTraverse_count_mono (cfg : CGCfg) :
    ∀ d x st, st.count ≤ (cgTraverse cfg d x st).2.count := by
  intro d
  induction d with
  | zero => intro x st; simp [cgTraverse]
  | succ d ih =>
    intro x st
    have hc : ∀ (refs : List String) (s : TravSt),
        s.count ≤ (childLoop cfg (fun r s => cgTraverse cfg d r s) refs s).2.count :=
      childLoop_count_mono cfg _ (fun r s => ih r s)
    simp only [cgTraverse]
    split
    · exact Nat.le_refl _
    split
    · exact Nat.le_refl _
    cases hsyms : cfg.lookup x with
    | nil => exact Nat.le_succ _
    | cons sym tail =>
      repeat' split
      all_goals dsimp only
      all_goals
        first
        | exact Nat.le_trans (Nat.le_succ _)
            (Nat.le_trans (hc _ ⟨x :: st.visited, st.count + 1⟩) (hc _ _))
        | exact Nat.le_trans (Nat.le_succ _) (hc _ ⟨x :: st.visited, st.count + 1⟩)
        | exact Nat.le_succ _

theorem cgTraverse_frozen (cfg : CGCfg) (d : Nat) (x : String) (st : TravSt)
    (h : budgetHit cfg st = true) : cgTraverse cfg d x st = (bareNode x, st) := by
  cases d with
  | zero => rfl
  | succ d =>
    simp only [cgTraverse]
    split
    · rfl
    · simp [h]

theorem childLoop_frozen (cfg : CGCfg) (rec : String → TravSt → CGNode × TravSt)
    (refs : List String) (st : TravSt) (h : budgetHit cfg st = true) :
    childLoop cfg rec refs st = ([], st) := by
  cases refs with
  | nil => rfl
  | cons r rest => simp [childLoop, h]

/-- Simulation relation between the states of the budgeted (`stB`) and the
unbudgeted (`stU`) traversal: either the two runs are still in lockstep and
below the budget, or the budgeted run has hit exactly `N` and the unbudgeted
one is at or past `N`. -/
def SimR (N : Nat) (stB stU : TravSt) : Prop :=
  (stB = stU ∧ stB.count < N) ∨ (stB.count = N ∧ N ≤ stU.count)

theorem simR_of_eq {N : Nat} {st : TravSt} (h : st.count ≤ N) : SimR N st st := by
  rcases Nat.lt_or_ge st.count N with h1 | h1
  · exact Or.inl ⟨rfl, h1⟩
  · exact Or.inr ⟨Nat.le_antisymm h h1, h1⟩

theorem childLoop_simR (cfgB cfgU : CGCfg) (N : Nat) (hN : 0 < N)
    (hB : cfgB.maxNodes = N) (hU : cfgU.maxNodes = 0)
    (recB recU : String → TravSt → CGNode × TravSt)
    (hrecU : ∀ x st, st.count ≤ (recU x st).2.count)
    (hrec : ∀ x stB stU, SimR N stB stU → SimR N (recB x stB).2 (recU x stU).2) :
    ∀ refs stB stU, SimR N stB stU →
      SimR N (childLoop cfgB recB refs stB).2 (childLoop cfgU recU refs stU).2 := by
  intro refs
  induction refs with
  | nil => intro stB stU h; simpa [childLoop] using h
  | cons r rest ih =>
    intro stB stU h
    have hUbud : budgetHit cfgU stU = false := by simp [budgetHit, hU]
    rcases h with ⟨heq, hlt⟩ | ⟨hBN, hUN⟩
    · subst heq
      have hBbud : budgetHit cfgB stB = false := by
        simp only [budgetHit, hB, decide_eq_false_iff_not]
        omega
      simp only [childLoop, hBbud, hUbud, Bool.false_eq_true, if_false]
      by_cases hv : r ∈ stB.visited
      · simp only [hv, if_true]
        exact ih _ _ (Or.inl ⟨rfl, hlt⟩)
      · simp only [hv, if_false]
        exact ih _ _ (hrec r stB stB (Or.inl ⟨rfl, hlt⟩))
    · have hBbud : budgetHit cfgB stB = true := by
        simp only [budgetHit, hB, decide_eq_true_eq]
        omega
      rw [childLoop_frozen cfgB recB (r :: rest) stB hBbud]
      exact Or.inr ⟨hBN, Nat.le_trans hUN (childLoop_count_mono cfgU recU hrecU (r :: rest) stU)⟩

theorem cgTraverse_simR (l : String → List SymbolInfo) (e : List String) (dir : Direction)
    (N : Nat) (hN : 0 < N) :
    ∀ d x stB stU, SimR N stB stU →
      SimR N (cgTraverse ⟨l, N, e, dir⟩ d x stB).2 (cgTraverse ⟨l, 0, e, dir⟩ d x stU).2 := by
  intro d
  induction d with
  | zero => intro x stB stU h; simpa [cgTraverse] using h
  | succ d ih =>
    intro x stB stU h
    rcases h with ⟨heq, hlt⟩ | ⟨hBN, hUN⟩
    · subst heq
      have hBbud : budgetHit ⟨l, N, e, dir⟩ stB = false := by
        simp only [budgetHit, decide_eq_false_iff_not]
        omega
      have hUbud : budgetHit ⟨l, 0, e, dir⟩ stB = false := by
        simp [budgetHit]
      simp only [cgTraverse]
      by_cases hv : x ∈ stB.visited
      · simp only [hv, if_true]
        exact Or.inl ⟨rfl, hlt⟩
      · simp only [hv, if_false, hBbud, hUbud, Bool.false_eq_true]
        have h1 : SimR N ⟨x :: stB.visited, stB.count + 1⟩ ⟨x :: stB.visited, stB.count + 1⟩ :=
          simR_of_eq (by simpa using hlt)
        cases hl : l x with
        | nil => simpa [hl] using h1
        | cons sym tail =>
          simp only [hl]
          by_cases hk : sym.kind ∈ e
          · simpa [hk] using h1
          · simp only [hk, if_false]
            have hcs := childLoop_simR ⟨l, N, e, dir⟩ ⟨l, 0, e, dir⟩ N hN rfl rfl
              (fun r s => cgTraverse ⟨l, N, e, dir⟩ d r s)
              (fun r s => cgTraverse ⟨l, 0, e, dir⟩ d r s)
              (fun r s => cgTraverse_count_mono _ d r s)
              (fun r s1 s2 hh => ih r s1 s2 hh)
            cases dir with
            | calls => exact hcs _ _ _ h1
            | callers => exact hcs _ _ _ h1
            | both => exact hcs _ _ _ (hcs _ _ _ h1)
    · have hBbud : budgetHit ⟨l, N, e, dir⟩ stB = true := by
        simp only [budgetHit, decide_eq_true_eq]
        constructor
        · omega
        · omega
      rw [cgTraverse_frozen _ _ _ _ hBbud]
      exact Or.inr ⟨hBN, Nat.le_trans hUN (cgTraverse_count_mono _ _ _ _)⟩

/-- C2 (amended): for `max_nodes = N > 0` the number of expanded nodes
(`_meta.total_nodes`) never exceeds `N`, and `_meta.truncated` is true if and
only if the unbounded traversal (same name, depth, direction) expands at
least `N` nodes.  The original claim's "would have exceeded N" (strictly more
than `N`) is refuted by `callgraph_budget_boundary_cex` below: when the full
traversal has exactly `N` nodes, the flag is still set. -/
theorem callgraph_budget (l : String → List SymbolInfo) (e : List String) (dir : Direction)
    (name : String) (depth N : Nat) (hN : 0 < N) :
    (buildCallgraph ⟨l, N, e, dir⟩ name depth).2.total_nodes ≤ N ∧
    ((buildCallgraph ⟨l, N, e, dir⟩ name depth).2.truncated = true ↔
      N ≤ (buildCallgraph ⟨l, 0, e, dir⟩ name depth).2.total_nodes) := by
  have hsim := cgTraverse_simR l e dir N hN depth name ⟨[], 0⟩ ⟨[], 0⟩ (Or.inl ⟨rfl, hN⟩)
  simp only [buildCallgraph]
  rcases hsim with ⟨heq, hlt⟩ | ⟨hBN, hUN⟩
  · constructor
    · exact Nat.le_of_lt hlt
    · rw [heq]
      constructor
      · intro ht
        simp only [decide_eq_true_eq] at ht
        exact ht.2
      · intro ht
        rw [heq] at hlt
        omega
  · constructor
    · exact Nat.le_of_eq hBN
    · constructor
      · intro _
        exact hUN
      · intro _
        simp only [decide_eq_true_eq]
        exact ⟨hN, Nat.le_of_eq hBN.symm⟩

/-- A two-node acyclic fixture: `a` calls `b`, `b` calls nothing. -/
def exLookupAB : String → List SymbolInfo := fun n =>
  if n = "a" then [{ id := "f_a", name := "a", kind := "function", references := ["b"] }]
  else if n = "b" then [{ id := "f_b", name := "b", kind := "function" }]
  else []

/-- C2 counterexample: with `max_nodes = 2` and `depth = 2` on the two-node
fixture, the unbounded traversal expands exactly 2 nodes — it does not
exceed the budget — yet the truncation flag is set, refuting "truncated iff
the full traversal would have exceeded N". -/
theorem callgraph_budget_boundary_cex :
    ¬ (((buildCallgraph ⟨exLookupAB, 2, [], Direction.calls⟩ "a" 2).2.truncated = true) ↔
        2 < (buildCallgraph ⟨exLookupAB, 0, [], Direction.calls⟩ "a" 2).2.total_nodes) := by
  decide

/-- Witness for `callgraph_budget` at a concrete fixture and budget. -/
theorem callgraph_budget_witness :
    (buildCallgraph ⟨exLookupAB, 2, [], Direction.calls⟩ "a" 2).2.total_nodes ≤ 2 ∧
    ((buildCallgraph ⟨exLookupAB, 2, [], Direction.calls⟩ "a" 2).2.truncated = true ↔
      2 ≤ (buildCallgraph ⟨exLookupAB, 0, [], Direction.calls⟩ "a" 2).2.total_nodes) :=
  callgraph_budget exLookupAB [] Direction.calls "a" 2 2 (by decide)

/-- A two-node cyclic fixture: `A` calls `B` and `B` calls `A`. -/
def cycLookup : String → List SymbolInfo := fun n =>
  if n = "A" then [{ id := "f_A", name := "A", kind := "function", references := ["B"] }]
  else if n = "B" then [{ id := "f_B", name := "B", kind := "function", references := ["A"] }]
  else []

/-- C3: on the cyclic fixture `A ↔ B`, traversal at any depth `≥ 2`
terminates (the embedding is a total function, so the equation below is a
statement about its value) and returns the fixed finite tree in which the
second visit to `A` is a terminal cycle-marked leaf
(`CGNode.node "A" none true [] []`) rather than a re-expansion; the result
does not depend on how much deeper than 2 the traversal is allowed to go. -/
theorem callgraph_cycle_leaf (k : Nat) :
    buildCallgraph ⟨cycLookup, 0, [], Direction.calls⟩ "A" (k + 2)
      = (CGNode.node "A" (some ("function", "", 0)) false
           [CGNode.node "B" (some ("function", "", 0)) false
             [CGNode.node "A" none true [] []] []] [],
         { total_nodes := 2, max_nodes := 0, truncated := false, hint := none }) := by
  rfl

theorem cgTraverse_name (cfg : CGCfg) (d : Nat) (x : String) (st : TravSt) :
    (cgTraverse cfg d x st).1.name = x := by
  cases d with
  | zero => rfl
  | succ d =>
    simp only [cgTraverse]
    repeat' split
    all_goals rfl

/-- C5: during call-graph traversal, a `references`/`referenced_by` entry whose
name has zero matching records (`find_symbol` returns `[]`) yields a bare leaf
node carrying only the name — no `kind`/`file`/`line` payload, no children, no
cycle marker — and is never an error; moreover (absent a node budget, i.e.
`max_nodes = 0`) the edge loop emits exactly one child per edge in order, so
unresolved edges are not dropped from the tree. -/
theorem callgraph_unresolved_leaf (cfg : CGCfg) :
    (∀ d fname st, cfg.lookup fname = [] →
        (cgTraverse cfg d fname st).1 = CGNode.node fname none false [] []) ∧
    (cfg.maxNodes = 0 → ∀ d refs st,
        (childLoop cfg (fun r s => cgTraverse cfg d r s) refs st).1.map CGNode.name = refs) := by
  constructor
  · intro d fname st h
    cases d with
    | zero => rfl
    | succ d =>
      simp only [cgTraverse, h]
      repeat' split
      all_goals rfl
  · intro h0 d refs
    induction refs with
    | nil => intro st; rfl
    | cons r rest ih =>
      intro st
      have hbud : budgetHit cfg st = false := by simp [budgetHit, h0]
      simp only [childLoop, hbud, Bool.false_eq_true, if_false]
      by_cases hv : r ∈ st.visited
      · simp only [hv, if_true, List.map_cons]
        rw [ih]
        rfl
      · simp only [hv, if_false, List.map_cons]
        rw [ih, cgTraverse_name]

theorem childLoop_congr (cfg1 cfg2 : CGCfg) (hm : cfg1.maxNodes = cfg2.maxNodes)
    (rec1 rec2 : String → TravSt → CGNode × TravSt)
    (hrec : ∀ x st, rec1 x st = rec2 x st) :
    ∀ refs st, childLoop cfg1 rec1 refs st = childLoop cfg2 rec2 refs st := by
  intro refs
  induction refs with
  | nil => intro st; rfl
  | cons r rest ih =>
    intro st
    have hb : budgetHit cfg1 st = budgetHit cfg2 st := by simp [budgetHit, hm]
    simp only [childLoop, hb, hrec, ih]

theorem cgTraverse_head_congr (l1 l2 : String → List SymbolInfo) (N : Nat)
    (e : List String) (dir : Direction) (h : ∀ n, (l1 n).head? = (l2 n).head?) :
    ∀ d x st, cgTraverse ⟨l1, N, e, dir⟩ d x st = cgTraverse ⟨l2, N, e, dir⟩ d x st := by
  intro d
  induction d with
  | zero => intro x st; rfl
  | succ d ih =>
    intro x st
    have hcl : ∀ refs s, childLoop ⟨l1, N, e, dir⟩ (fun r s => cgTraverse ⟨l1, N, e, dir⟩ d r s) refs s
        = childLoop ⟨l2, N, e, dir⟩ (fun r s => cgTraverse ⟨l2, N, e, dir⟩ d r s) refs s :=
      childLoop_congr ⟨l1, N, e, dir⟩ ⟨l2, N, e, dir⟩ rfl _ _ (fun r s => ih r s)
    have hx := h x
    simp only [cgTraverse]
    cases hl1 : l1 x with
    | nil =>
      cases hl2 : l2 x with
      | nil => simp only [hl1, hl2]; rfl
      | cons s2 t2 => rw [hl1, hl2] at hx; simp at hx
    | cons s1 t1 =>
      cases hl2 : l2 x with
      | nil => rw [hl1, hl2] at hx; simp at hx
      | cons s2 t2 =>
        rw [hl1, hl2] at hx
        simp only [List.head?_cons, Option.some.injEq] at hx
        subst hx
        simp only [hl1, hl2, hcl]
        rfl

/-- C10: the call-graph traversal expands a name using only the FIRST record
returned by `find_symbol` (`syms[0]`): two lookup functions that agree on the
head of every name's record list — however much the remaining same-named
overload records differ — produce identical call graphs, so the
`references`/`referenced_by` edges of every record beyond the first are
ignored. -/
theorem callgraph_first_record_only (l1 l2 : String → List SymbolInfo) (N : Nat)
    (e : List String) (dir : Direction)
    (h : ∀ n, (l1 n).head? = (l2 n).head?) (name : String) (depth : Nat) :
    buildCallgraph ⟨l1, N, e, dir⟩ name depth = buildCallgraph ⟨l2, N, e, dir⟩ name depth := by
  simp only [buildCallgraph, cgTraverse_head_congr l1 l2 N e dir h depth name ⟨[], 0⟩]

/-- First overload of `f`: calls `g`. -/
def ovSymF1 : SymbolInfo := { id := "f1", name := "f", kind := "function", references := ["g"] }

/-- Second overload of `f` (same name, different file/edges): calls `h`. -/
def ovSymF2 : SymbolInfo :=
  { id := "f2", name := "f", kind := "function", file := "other.c", references := ["h"] }

/-- Fixture where `f` has two same-named records. -/
def ovLookup1 : String → List SymbolInfo := fun n =>
  if n = "f" then [ovSymF1, ovSymF2]
  else if n = "g" then [{ id := "g1", name := "g", kind := "function" }]
  else []

/-- Fixture where `f` has only the first record. -/
def ovLookup2 : String → List SymbolInfo := fun n =>
  if n = "f" then [ovSymF1]
  else if n = "g" then [{ id := "g1", name := "g", kind := "function" }]
  else []

/-- Witness for `callgraph_first_record_only`: dropping the second overload
record (and its edge to `h`) does not change the call graph. -/
theorem callgraph_first_record_only_witness :
    buildCallgraph ⟨ovLookup1, 0, [], Direction.calls⟩ "f" 3
      = buildCallgraph ⟨ovLookup2, 0, [], Direction.calls⟩ "f" 3 :=
  callgraph_first_record_only ovLookup1 ovLookup2 0 [] Direction.calls
    (fun n => by by_cases h1 : n = "f" <;> by_cases h2 : n = "g" <;>
      simp [ovLookup1, ovLookup2, h1, h2]) "f" 3

/-- Witness for `callgraph_unresolved_leaf`: the unresolved name `zzz` becomes
a bare leaf, and a two-edge loop (one resolved edge, one unresolved) emits
both children in order. -/
theorem callgraph_unresolved_leaf_witness :
    (cgTraverse ⟨exLookupAB, 0, [], Direction.calls⟩ 2 "zzz" ⟨[], 0⟩).1
        = CGNode.node "zzz" none false [] [] ∧
    (childLoop ⟨exLookupAB, 0, [], Direction.calls⟩
        (fun r s => cgTraverse ⟨exLookupAB, 0, [], Direction.calls⟩ 1 r s)
        ["b", "zzz"] ⟨["x"], 1⟩).1.map CGNode.name = ["b", "zzz"] :=
  ⟨(callgraph_unresolved_leaf ⟨exLookupAB, 0, [], Direction.calls⟩).1 2 "zzz" ⟨[], 0⟩ (by decide),
   (callgraph_unresolved_leaf ⟨exLookupAB, 0, [], Direction.calls⟩).2 rfl 1 ["b", "zzz"] ⟨["x"], 1⟩⟩

/-- A `<member>` entry of a `<compound>` element in Doxygen's `index.xml`. -/
structure MemberEntry where
  refid : String
  kind : String
  name : String
  deriving DecidableEq

/-- A `<compound>` entry of `index.xml`, with its member list in document
order. -/
structure IndexCompound where
  refid : String
  kind : String
  name : String
  members : List MemberEntry
  deriving DecidableEq

/-- The parsed content of one per-compound detail file `<refid>.xml`: the
`<compounddef>`'s optional `<location>` (file attribute, line attribute), its
brief description text, and its `<memberdef>` elements, each given as the
`SymbolInfo` that `_parse_memberdef_element` produces from it. -/
structure CompoundDoc where
  location : Option (String × Nat) := none
  brief : String := ""
  members : List SymbolInfo := []
  deriving DecidableEq

/-- A parsed Doxygen XML output directory: the `index.xml` compound list in
document order, and the detail files keyed by refid.  A refid with no entry
models a missing detail file (tolerated by both backends). -/
structure Fixture where
  compounds : List IndexCompound
  docs : List (String × CompoundDoc)
  deriving DecidableEq

/-- Load the detail file for a refid (`None` when the file does not exist). -/
def lookupDoc (fix : Fixture) (refid : String) : Option CompoundDoc :=
  (fix.docs.find? (fun p => decide (p.1 = refid))).map Prod.snd

/-- One value of the `_index` multimap of `DoxygenXMLIndex._parse_index`:
`{refid, kind, compound_refid, is_compound}`. -/
structure IdxEntry where
  refid : String
  kind : String
  compound_refid : String
  is_compound : Bool
  deriving DecidableEq

/-- The `(name, entry)` pairs produced for one `<compound>` by
`_parse_index`: the compound itself (when its name is non-empty), then its
members (those with non-empty names). -/
def compoundEntries (c : IndexCompound) : List (String × IdxEntry) :=
  (if c.name ≠ "" then [(c.name, ⟨c.refid, c.kind, c.refid, true⟩)] else [])
    ++ c.members.filterMap (fun m =>
        if m.name ≠ "" then some (m.name, ⟨m.refid, m.kind, c.refid, false⟩) else none)

/-- All `(name, entry)` pairs of `_parse_index` in scan order. -/
def xmlIndexEntries (fix : Fixture) : List (String × IdxEntry) :=
  (fix.compounds.map compoundEntries).flatten

/-- `self._index.get(name, [])`: the entries for one name, in insertion
order. -/
def entriesFor (fix : Fixture) (name : String) : List IdxEntry :=
  (xmlIndexEntries fix).filterMap (fun p => if p.1 = name then some p.2 else none)

/-- Embedding of `DoxygenXMLIndex.find_symbol(name, scope)`. -/
def xmlFindSymbol (fix : Fixture) (name : String) (scope : String) : List SymbolInfo :=
  (entriesFor fix name).foldl (fun results e =>
    match lookupDoc fix e.compound_refid with
    | none => results
    | some doc =>
      if e.is_compound then
        let sym : SymbolInfo :=
          { id := e.refid, name := name, kind := e.kind,
            file := (doc.location.map Prod.fst).getD "",
            line := (doc.location.map (fun p => p.2)).getD 0,
            brief := doc.brief }
        if scope ≠ "" ∧ strStarts sym.file scope = false then results
        else results ++ [sym]
      else
        match doc.members.find? (fun m => decide (m.id = e.refid)) with
        | none => results
        | some m =>
          if scope ≠ "" ∧ strStarts m.file scope = false then results
          else results ++ [m]) []

/-- The set of compound refids that own at least one member entry, iterated
in first-occurrence scan order (Python iterates a `set`, whose order is
unspecified; every property proved of this list is order-insensitive or
holds for this canonical order). -/
def xmlCompoundRefids (fix : Fixture) : List String :=
  dedupFirst ((xmlIndexEntries fix).filterMap
    (fun p => if p.2.is_compound then none else some p.2.compound_refid))

/-- The inner loop of `get_all_symbols`: walk one detail file's memberdefs,
keeping those with a fresh non-empty id (`if sym.id and sym.id not in
seen_ids`). -/
def xmlScanMembers : List SymbolInfo → List String → List SymbolInfo × List String
  | [], seen => ([], seen)
  | m :: ms, seen =>
    if m.id ≠ "" ∧ m.id ∉ seen then
      let rest := xmlScanMembers ms (m.id :: seen)
      (m :: rest.1, rest.2)
    else xmlScanMembers ms seen

/-- The outer loop of `get_all_symbols`: stream-parse each compound file once,
skipping missing files, threading the `seen_ids` set. -/
def xmlScanRefids (fix : Fixture) : List String → List String → List SymbolInfo
  | [], _ => []
  | r :: rs, seen =>
    match lookupDoc fix r with
    | none => xmlScanRefids fix rs seen
    | some doc =>
      let res := xmlScanMembers doc.members seen
      res.1 ++ xmlScanRefids fix rs res.2

/-- Embedding of `DoxygenXMLIndex.get_all_symbols(scope)`. -/
def xmlGetAllSymbols (fix : Fixture) (scope : String) : List SymbolInfo :=
  let syms := xmlScanRefids fix (xmlCompoundRefids fix) []
  if scope ≠ "" then syms.filter (fun s => strStarts s.file scope) else syms

/-- Embedding of `DoxygenXMLIndex.get_all_kinds()`: sorted distinct entry
kinds. -/
def xmlGetAllKinds (fix : Fixture) : List String :=
  sortStrings (dedupFirst ((xmlIndexEntries fix).map (fun p => p.2.kind)))

/-- Occurrence counts of each distinct key, keys in first-occurrence order
(a Python counting dict before sorting). -/
def countBy (keys : List String) : List (String × Nat) :=
  (dedupFirst keys).map (fun k => (k, keys.countP (fun x => decide (x = k))))

/-- Stable sort of `(key, count)` pairs by descending count
(`sorted(..., key=lambda x: -x[1])`, and SQL `ORDER BY c DESC`). -/
def sortCountDesc (l : List (String × Nat)) : List (String × Nat) :=
  l.insertionSort (fun a b => b.2 ≤ a.2)

/-- The logical content of a `get_stats()` result: total member-symbol count
and the per-kind / per-file counts.  The remaining keys of the Python dict
(`index_backend`, `xml_files`, `db_size_bytes`) name the backend itself and
on-disk artifact sizes; they are environment metadata, not logical query
results, and are not modelled. -/
structure IndexStats where
  total_symbols : Nat
  by_kind : List (String × Nat)
  by_file : List (String × Nat)
  deriving DecidableEq

/-- Embedding of `DoxygenXMLIndex.get_stats()` (logical fields). -/
def xmlGetStats (fix : Fixture) : IndexStats :=
  let symbols := xmlGetAllSymbols fix ""
  { total_symbols := symbols.length,
    by_kind := sortCountDesc (countBy (symbols.map (fun s => s.kind))),
    by_file := sortCountDesc (countBy
      ((symbols.filter (fun s => decide (s.file ≠ ""))).map (fun s => s.file))) }

/-- One entry of a `members` result's member list (`_parse_compound_members`
and the identical loop in `DoxygenXMLIndex.get_members`).  A `<memberdef>`
without a `<location>` element yields `line = 0` here where Python omits the
`line` key; both backends run the same loop on the same file, so the
flattening is identical on both sides. -/
structure MemberSummary where
  name : String
  kind : String
  type : String
  brief : String
  line : Nat
  deriving DecidableEq

/-- Member summary of one parsed memberdef. -/
def memberSummaryOf (m : SymbolInfo) : MemberSummary :=
  { name := m.name, kind := m.kind, type := m.return_type, brief := m.brief, line := m.line }

/-- A `get_members` result. -/
structure MembersResult where
  name : String
  kind : String
  file : String
  line : Nat
  brief : String
  members : List MemberSummary
  deriving DecidableEq

/-- Embedding of `DoxygenXMLIndex.get_members(compound_name)`. -/
def xmlGetMembers (fix : Fixture) (compound_name : String) : Option MembersResult :=
  match ((entriesFor fix compound_name).filter (fun e => e.is_compound)).head? with
  | none => none
  | some e =>
    match lookupDoc fix e.compound_refid with
    | none => none
    | some doc =>
      some { name := compound_name, kind := e.kind,
             file := (doc.location.map Prod.fst).getD "",
             line := (doc.location.map (fun p => p.2)).getD 0,
             brief := doc.brief,
             members := doc.members.map memberSummaryOf }

/-- Embedding of `DoxygenXMLIndex.get_all_files(scope)`. -/
def xmlGetAllFiles (fix : Fixture) (scope : String) : List String :=
  sortStrings (dedupFirst ((xmlGetAllSymbols fix "").filterMap (fun s =>
    if s.file ≠ "" then
      (if scope ≠ "" ∧ strStarts s.file scope = false then none else some s.file)
    else none)))

/-- Embedding of `DoxygenXMLIndex.get_symbols_in_file(path)` (stable sort by
line, as Python `list.sort`). -/
def xmlSymbolsInFile (fix : Fixture) (path : String) : List SymbolInfo :=
  ((xmlGetAllSymbols fix "").filter (fun s => decide (s.file = path))).insertionSort
    (fun a b => a.line ≤ b.line)

/-- One row of the SQLite `symbols` table.  Columns other than
`id`/`name`/`kind` are nullable; compound rows are inserted with them NULL. -/
structure SymRow where
  id : String
  name : String
  kind : String
  file : Option String := none
  line : Option Nat := none
  body_start : Option Nat := none
  body_end : Option Nat := none
  return_type : Option String := none
  params : Option String := none
  brief : Option String := none
  detailed : Option String := none
  is_compound : Bool := false
  deriving DecidableEq

/-- One row of the `refs` table (`from_id`, `to_name`, `direction`). -/
structure RefRow where
  from_id : String
  to_name : String
  direction : String
  deriving DecidableEq

/-- The SQLite store: rows of `symbols` and `refs` in insertion (rowid)
order.  The one-row `meta` table holds only the wall-clock build time and is
not part of any query result. -/
structure DB where
  symbols : List SymRow
  refs : List RefRow
  deriving DecidableEq

/-- `INSERT OR IGNORE` keyed on the `id` primary key. -/
def insertOrIgnore (rows : List SymRow) (r : SymRow) : List SymRow :=
  if rows.any (fun x => decide (x.id = r.id)) then rows else rows ++ [r]

/-- The compound-level row inserted by `_build_db` (`is_compound = 1`, all
other nullable columns NULL). -/
def compoundRowOf (c : IndexCompound) : SymRow :=
  { id := c.refid, name := c.name, kind := c.kind, is_compound := true }

/-- The compound-insertion loop of `_build_db` (compounds with empty names
are skipped). -/
def sqlCompoundRows (fix : Fixture) : List SymRow :=
  fix.compounds.foldl (fun rows c =>
    if c.name ≠ "" then insertOrIgnore rows (compoundRowOf c) else rows) []

/-- The `compound_refids` set of `_build_db`: refids of compounds with at
least one `<member>` element, in first-occurrence order (Python set-iteration
order is unspecified; see `xmlCompoundRefids`). -/
def sqlCompoundRefids (fix : Fixture) : List String :=
  dedupFirst (fix.compounds.filterMap (fun c => if c.members ≠ [] then some c.refid else none))

/-- Last value assigned to a key in a sequence of dict assignments. -/
def lastAssoc (ps : List (String × String)) (k : String) : String :=
  (ps.foldl (fun acc p => if p.1 = k then some p.2 else acc) none).getD ""

/-- The `compound_kinds` dict of `_build_db` as Python iterates its
`.items()`: keys in first-insertion order, each with its last-assigned
value. -/
def compoundKindItems (fix : Fixture) : List (String × String) :=
  let ps := fix.compounds.map (fun c => (c.refid, c.kind))
  (dedupFirst (ps.map Prod.fst)).map (fun k => (k, lastAssoc ps k))

/-- The member row inserted by `_build_db` for one parsed memberdef
(`is_compound = 0`, every column bound, so e.g. an unknown file is the empty
string, not NULL). -/
def memberRowOf (m : SymbolInfo) : SymRow :=
  { id := m.id, name := m.name, kind := m.kind, file := some m.file, line := some m.line,
    body_start := some m.body_start, body_end := some m.body_end,
    return_type := some m.return_type, params := some m.params,
    brief := some m.brief, detailed := some m.detailed, is_compound := false }

/-- The `refs` rows inserted for one parsed memberdef: its outgoing
references as `calls` edges, then its `referenced_by` as `callers` edges.
These inserts are unconditional — they happen even when the symbol row
itself was ignored as a duplicate id. -/
def refRowsOf (m : SymbolInfo) : List RefRow :=
  m.references.map (fun t => ⟨m.id, t, "calls"⟩)
    ++ m.referenced_by.map (fun t => ⟨m.id, t, "callers"⟩)

/-- The member-insertion loop of `_build_db` over a stream of parsed
memberdefs. -/
def sqlInsertMembers : List SymRow → List RefRow → List SymbolInfo → List SymRow × List RefRow
  | rows, refs, [] => (rows, refs)
  | rows, refs, m :: ms =>
    sqlInsertMembers (insertOrIgnore rows (memberRowOf m)) (refs ++ refRowsOf m) ms

/-- The concatenated memberdef stream over the detail files of the given
refids, skipping missing files — exactly what both `_build_db` and
`get_all_symbols` iterate over. -/
def docStream (fix : Fixture) (refids : List String) : List SymbolInfo :=
  (refids.map (fun r => match lookupDoc fix r with
    | none => []
    | some doc => doc.members)).flatten

/-- The compound kinds whose locations are back-filled by Item 12 of
`_build_db`. -/
def compoundLocKinds : List String := ["struct", "class", "union", "namespace"]

/-- Effect of one Item-12 `UPDATE symbols SET file=?, line=? WHERE id=?` on
one row.  The SQL statement updates the rows whose id equals the compound
refid and only when the compound's detail file exists, has a location, and
a non-empty file attribute. -/
def stepLoc (fix : Fixture) (row : SymRow) (p : String × String) : SymRow :=
  if p.2 ∈ compoundLocKinds then
    match lookupDoc fix p.1 with
    | none => row
    | some doc =>
      match doc.location with
      | none => row
      | some fl =>
        if fl.1 ≠ "" ∧ row.id = p.1 then { row with file := some fl.1, line := some fl.2 } else row
  else row

/-- The Item-12 loop of `_build_db`.  Python runs one UPDATE per
`compound_kinds` item over the whole table; since each UPDATE touches only
the rows with that item's id and never changes an id, this is the same as
folding the item list over each row independently. -/
def sqlUpdateCompoundLoc (fix : Fixture) (rows : List SymRow) : List SymRow :=
  rows.map (fun r => (compoundKindItems fix).foldl (stepLoc fix) r)

/-- Embedding of `DoxygenSQLiteIndex._build_db()`: drop and repopulate
`symbols` (compound rows, then member rows streamed per compound file, then
the Item-12 location back-fill) and `refs`. -/
def buildDb (fix : Fixture) : DB :=
  let crows := sqlCompoundRows fix
  let ins := sqlInsertMembers crows [] (docStream fix (sqlCompoundRefids fix))
  { symbols := sqlUpdateCompoundLoc fix ins.1, refs := ins.2 }

/-- Embedding of `DoxygenSQLiteIndex._row_to_symbol(row)`: rebuild a
`SymbolInfo` from a row, nullable columns defaulted (`row[...] or ""`/`0`),
and the edge lists re-read from `refs` by `from_id` and direction. -/
def rowToSymbol (db : DB) (r : SymRow) : SymbolInfo :=
  { id := r.id, name := r.name, kind := r.kind,
    file := r.file.getD "", line := r.line.getD 0,
    body_start := r.body_start.getD 0, body_end := r.body_end.getD 0,
    return_type := r.return_type.getD "", params := r.params.getD "",
    brief := r.brief.getD "", detailed := r.detailed.getD "",
    references := (db.refs.filter (fun x =>
      decide (x.from_id = r.id) && decide (x.direction = "calls"))).map RefRow.to_name,
    referenced_by := (db.refs.filter (fun x =>
      decide (x.from_id = r.id) && decide (x.direction = "callers"))).map RefRow.to_name }

/-- SQLite `col LIKE scope || '%'`: a starts-with test that folds ASCII case
(SQLite's default LIKE).  `%`/`_` wildcards inside `scope` itself are not
modelled (no claim exercises them). -/
def likeStarts (s : String) (pat : String) : Bool :=
  strStarts (asciiLower s) (asciiLower pat)

/-- Embedding of `DoxygenSQLiteIndex.find_symbol(name, scope)`:
`WHERE name=?` and, when a scope is given, `AND (file LIKE scope% OR file IS
NULL)`. -/
def sqlFindSymbol (db : DB) (name : String) (scope : String) : List SymbolInfo :=
  let rows := if scope ≠ "" then
      db.symbols.filter (fun r => decide (r.name = name) &&
        (match r.file with | none => true | some f => likeStarts f scope))
    else db.symbols.filter (fun r => decide (r.name = name))
  rows.map (rowToSymbol db)

/-- Embedding of `DoxygenSQLiteIndex.get_all_symbols(scope)`:
`WHERE is_compound=0` and, when scoped, `AND file LIKE scope%` (a NULL file
never matches LIKE). -/
def sqlGetAllSymbols (db : DB) (scope : String) : List SymbolInfo :=
  let rows := if scope ≠ "" then
      db.symbols.filter (fun r => !r.is_compound &&
        (match r.file with | none => false | some f => likeStarts f scope))
    else db.symbols.filter (fun r => !r.is_compound)
  rows.map (rowToSymbol db)

/-- Embedding of `DoxygenSQLiteIndex.get_all_kinds()`. -/
def sqlGetAllKinds (db : DB) : List String :=
  sortStrings (dedupFirst (db.symbols.map SymRow.kind))

/-- Embedding of `DoxygenSQLiteIndex.get_stats()` (logical fields; see
`IndexStats`). -/
def sqlGetStats (db : DB) : IndexStats :=
  let mrows := db.symbols.filter (fun r => !r.is_compound)
  { total_symbols := mrows.length,
    by_kind := sortCountDesc (countBy (mrows.map SymRow.kind)),
    by_file := sortCountDesc (countBy
      ((mrows.filter (fun r => match r.file with
          | none => false
          | some f => decide (f ≠ ""))).map (fun r => r.file.getD ""))) }

/-- Embedding of `DoxygenSQLiteIndex.get_members(compound_name)`:
`fetchone()` on `WHERE name=? AND is_compound=1`, then
`_parse_compound_members` on the row's id (`None` result leaves the member
list empty). -/
def sqlGetMembers (fix : Fixture) (db : DB) (compound_name : String) : Option MembersResult :=
  match db.symbols.find? (fun r => decide (r.name = compound_name) && r.is_compound) with
  | none => none
  | some row =>
    some { name := compound_name, kind := row.kind,
           file := row.file.getD "", line := row.line.getD 0, brief := row.brief.getD "",
           members := match lookupDoc fix row.id with
                      | none => []
                      | some doc => doc.members.map memberSummaryOf }

/-- Embedding of `DoxygenSQLiteIndex.get_all_files(scope)`:
`SELECT DISTINCT file WHERE file != '' [AND file LIKE scope%] ORDER BY
file`. -/
def sqlGetAllFiles (db : DB) (scope : String) : List String :=
  sortStrings (dedupFirst (db.symbols.filterMap (fun r =>
    match r.file with
    | none => none
    | some f =>
      if f ≠ "" ∧ (scope = "" ∨ likeStarts f scope = true) then some f else none)))

/-- Embedding of `DoxygenSQLiteIndex.get_symbols_in_file(path)`:
`WHERE file=? AND is_compound=0 ORDER BY line`. -/
def sqlSymbolsInFile (db : DB) (path : String) : List SymbolInfo :=
  (((db.symbols.filter (fun r =>
      (match r.file with | none => false | some f => decide (f = path)) &&
        !r.is_compound)).insertionSort
    (fun a b => a.line.getD 0 ≤ b.line.getD 0)).map (rowToSymbol db))

/-- The `port` member of the `Config` struct in the counterexample fixture. -/
def portSym : SymbolInfo :=
  { id := "m_port", name := "port", kind := "variable", file := "config.h", line := 12,
    return_type := "int" }

/-- A minimal fixture: one `struct Config` compound with a brief description,
a location, and one member. -/
def cfgFix : Fixture :=
  { compounds := [⟨"structConfig", "struct", "Config", [⟨"m_port", "variable", "port"⟩]⟩],
    docs := [("structConfig",
      { location := some ("config.h", 10), brief := "Configuration structure",
        members := [portSym] })] }

/-- C1 counterexample: on `cfgFix` the two backends disagree on
`get_members("Config")` — the in-memory backend reports the compound's brief
description (read from the compound's XML), while the SQLite backend stores
no brief for compound rows and returns the empty string.  The logical
results of a shared query operation therefore differ between the backends. -/
theorem backend_members_brief_cex :
    xmlGetMembers cfgFix "Config" ≠ sqlGetMembers cfgFix (buildDb cfgFix) "Config" := by
  decide

/-- Filesystem facts consulted by `_ensure_db`/`_is_stale`: whether
`symbols.db` exists, its stat mtime (`none` models the OSError branch), and
the stat mtimes of the globbed `*.xml` files (`none` = OSError, skipped). -/
structure StoreFs where
  dbExists : Bool
  dbMtime : Option Nat
  xmlMtimes : List (Option Nat)
  deriving DecidableEq

/-- Embedding of `DoxygenSQLiteIndex._is_stale()`: stale when the db cannot
be stat'ed, or some xml file is strictly newer than the db. -/
def isStale (fs : StoreFs) : Bool :=
  match fs.dbMtime with
  | none => true
  | some dbM => fs.xmlMtimes.any (fun x =>
      match x with
      | none => false
      | some m => decide (dbM < m))

/-- Embedding of `DoxygenSQLiteIndex._ensure_db()`: reuse the store when it
exists and is fresh, otherwise run `_build_db`.  The Boolean records whether
`_build_db` ran; the rebuilt store is `buildDb fix`, a function of the
source fixture only — the previous store contents never flow into it, so a
rebuild is always full, never partial or incremental. -/
def ensureDb (fs : StoreFs) (old : DB) (fix : Fixture) : DB × Bool :=
  if fs.dbExists && !isStale fs then (old, false) else (buildDb fix, true)

/-- C7: the persistent backend rebuilds its store in full exactly when the
store file does not exist or at least one source XML file's mtime is
strictly newer than the store's mtime; otherwise the existing store is
reused unchanged.  A rebuild produces `buildDb fix` — determined by the
source XML alone — so there is no partial or incremental rebuild.  The
hypothesis rules out the unobservable race in which `exists()` succeeds but
the immediately following `stat` raises. -/
theorem ensure_db_rebuild_policy (fs : StoreFs) (old : DB) (fix : Fixture)
    (hwf : fs.dbExists = true → fs.dbMtime ≠ none) :
    ((ensureDb fs old fix).2 = true ↔
      fs.dbExists = false ∨
        ∃ m, some m ∈ fs.xmlMtimes ∧ ∃ dbM, fs.dbMtime = some dbM ∧ dbM < m) ∧
    ((ensureDb fs old fix).2 = false → (ensureDb fs old fix).1 = old) ∧
    ((ensureDb fs old fix).2 = true → (ensureDb fs old fix).1 = buildDb fix) := by
  refine ⟨?_, ?_, ?_⟩
  · cases hex : fs.dbExists with
    | false =>
      simp [ensureDb, hex]
    | true =>
      cases hdb : fs.dbMtime with
      | none => exact absurd hdb (hwf hex)
      | some dbM =>
        simp only [ensureDb, hex, Bool.true_and, isStale, hdb]
        constructor
        · intro h
          split at h
          · simp at h
          · rename_i hst
            simp only [Bool.not_eq_true', Bool.not_eq_false] at hst
            rw [List.any_eq_true] at hst
            obtain ⟨x, hx, hp⟩ := hst
            cases x with
            | none => simp at hp
            | some m =>
              simp only [decide_eq_true_eq] at hp
              exact Or.inr ⟨m, hx, dbM, rfl, hp⟩
        · intro h
          rcases h with h | ⟨m, hm, dbM2, hdb2, hlt⟩
          · simp at h
          · have hA : (fs.xmlMtimes.any (fun x =>
                match x with
                | none => false
                | some m => decide (dbM < m))) = true := by
              rw [List.any_eq_true]
              refine ⟨some m, hm, ?_⟩
              have he : dbM = dbM2 := Option.some.inj hdb2
              simp [he, hlt]
            simp [hA]
  · intro h
    by_cases hc : (fs.dbExists && !isStale fs) = true
    · simp [ensureDb, hc]
    · simp [ensureDb, hc] at h
  · intro h
    by_cases hc : (fs.dbExists && !isStale fs) = true
    · simp [ensureDb, hc] at h
    · simp [ensureDb, hc]

/-- Witness for `ensure_db_rebuild_policy`: a store older than one source
file is rebuilt. -/
theorem ensure_db_rebuild_policy_witness :
    ((ensureDb ⟨true, some 5, [some 3, some 9]⟩ ⟨[], []⟩ cfgFix).2 = true ↔
      (true : Bool) = false ∨
        ∃ m, some m ∈ [some 3, some 9] ∧ ∃ dbM, (some 5 : Option Nat) = some dbM ∧ dbM < m) ∧
    ((ensureDb ⟨true, some 5, [some 3, some 9]⟩ ⟨[], []⟩ cfgFix).2 = false →
      (ensureDb ⟨true, some 5, [some 3, some 9]⟩ ⟨[], []⟩ cfgFix).1 = ⟨[], []⟩) ∧
    ((ensureDb ⟨true, some 5, [some 3, some 9]⟩ ⟨[], []⟩ cfgFix).2 = true →
      (ensureDb ⟨true, some 5, [some 3, some 9]⟩ ⟨[], []⟩ cfgFix).1 = buildDb cfgFix) :=
  ensure_db_rebuild_policy ⟨true, some 5, [some 3, some 9]⟩ ⟨[], []⟩ cfgFix
    (by intro _; simp)

theorem dedupFirstAux_cons (seen : List String) (x : String) (xs : List String) :
    dedupFirstAux seen (x :: xs)
      = if x ∈ seen then dedupFirstAux seen xs else x :: dedupFirstAux (x :: seen) xs := rfl

theorem dedupFirstAux_replicate (a : String) :
    ∀ (n : Nat) (seen rest : List String),
      dedupFirstAux seen (List.replicate (n + 1) a ++ rest) = dedupFirstAux seen (a :: rest) := by
  intro n
  induction n with
  | zero => intro seen rest; rfl
  | succ k ih =>
    intro seen rest
    have hstep : List.replicate (k + 1 + 1) a ++ rest = a :: (List.replicate (k + 1) a ++ rest) :=
      rfl
    rw [hstep, dedupFirstAux_cons]
    by_cases hs : a ∈ seen
    · rw [if_pos hs, ih]
    · rw [if_neg hs, ih]
      conv_lhs => rw [dedupFirstAux_cons]
      rw [if_pos (List.mem_cons_self a seen)]
      conv_rhs => rw [dedupFirstAux_cons]
      rw [if_neg hs]

theorem filterMap_const_refid (c_refid : String) :
    ∀ (ms : List MemberEntry), (∀ me ∈ ms, me.name ≠ "") →
      ms.filterMap (fun m => if m.name ≠ "" then some c_refid else none)
        = List.replicate ms.length c_refid := by
  intro ms
  induction ms with
  | nil => intro _; rfl
  | cons me rest ih =>
    intro h
    have hme : me.name ≠ "" := h me (List.mem_cons_self _ _)
    rw [List.filterMap_cons, if_pos hme, ih (fun x hx => h x (List.mem_cons_of_mem _ hx))]
    rfl

theorem members_entries_refids (c_refid : String)
    (ms : List MemberEntry) (h : ∀ me ∈ ms, me.name ≠ "") :
    ((ms.filterMap (fun m => if m.name ≠ "" then
        some (m.name, (⟨m.refid, m.kind, c_refid, false⟩ : IdxEntry)) else none)).filterMap
      (fun p => if p.2.is_compound then none else some p.2.compound_refid))
      = List.replicate ms.length c_refid := by
  rw [List.filterMap_filterMap]
  have hcomp : ∀ m : MemberEntry,
      ((if m.name ≠ "" then
          some (m.name, (⟨m.refid, m.kind, c_refid, false⟩ : IdxEntry)) else none).bind
        (fun p => if p.2.is_compound then none else some p.2.compound_refid))
        = if m.name ≠ "" then some c_refid else none := by
    intro m
    by_cases hm : m.name ≠ "" <;> simp [hm]
  have hfun : (fun m : MemberEntry =>
      ((if m.name ≠ "" then
          some (m.name, (⟨m.refid, m.kind, c_refid, false⟩ : IdxEntry)) else none).bind
        (fun p => if p.2.is_compound then none else some p.2.compound_refid)))
      = (fun m : MemberEntry => if m.name ≠ "" then some c_refid else none) :=
    funext hcomp
  rw [hfun, filterMap_const_refid c_refid ms h]

theorem compoundEntries_refids (c : IndexCompound) (h : ∀ me ∈ c.members, me.name ≠ "") :
    (compoundEntries c).filterMap
        (fun p => if p.2.is_compound then none else some p.2.compound_refid)
      = List.replicate c.members.length c.refid := by
  simp only [compoundEntries, List.filterMap_append]
  have h1 : ((if c.name ≠ "" then
        [(c.name, (⟨c.refid, c.kind, c.refid, true⟩ : IdxEntry))] else []).filterMap
      (fun p => if p.2.is_compound then none else some p.2.compound_refid)) = [] := by
    split <;> rfl
  rw [h1, List.nil_append, members_entries_refids c.refid c.members h]

theorem refids_eq (fix : Fixture)
    (h1 : ∀ c ∈ fix.compounds, ∀ me ∈ c.members, me.name ≠ "") :
    xmlCompoundRefids fix = sqlCompoundRefids fix := by
  unfold xmlCompoundRefids sqlCompoundRefids xmlIndexEntries dedupFirst
  suffices h : ∀ (cs : List IndexCompound), (∀ c ∈ cs, ∀ me ∈ c.members, me.name ≠ "") →
      ∀ seen, dedupFirstAux seen (((cs.map compoundEntries).flatten).filterMap
          (fun p => if p.2.is_compound then none else some p.2.compound_refid))
        = dedupFirstAux seen
            (cs.filterMap (fun c => if c.members ≠ [] then some c.refid else none)) by
    exact h fix.compounds h1 []
  intro cs
  induction cs with
  | nil => intro _ _; rfl
  | cons c rest ih =>
    intro h seen
    have hc := h c (List.mem_cons_self _ _)
    have hrest := fun x hx => h x (List.mem_cons_of_mem _ hx)
    simp only [List.map_cons, List.flatten_cons, List.filterMap_append, List.filterMap_cons]
    rw [compoundEntries_refids c hc]
    cases hm : c.members with
    | nil =>
      simp only [List.length_nil, List.replicate_zero, List.nil_append, ne_eq,
        eq_self_iff_true, not_true_eq_false, if_false]
      exact ih hrest seen
    | cons me mes =>
      simp only [List.length_cons, ne_eq, reduceCtorEq, not_false_eq_true, if_true]
      rw [dedupFirstAux_replicate]
      rw [dedupFirstAux_cons, dedupFirstAux_cons]
      split
      · exact ih hrest seen
      · rw [ih hrest (c.refid :: seen)]

theorem xmlScanMembers_all :
    ∀ (ms : List SymbolInfo) (seen : List String),
      (∀ m ∈ ms, m.id ≠ "") → (∀ m ∈ ms, m.id ∉ seen) → (ms.map SymbolInfo.id).Nodup →
      xmlScanMembers ms seen = (ms, (ms.map SymbolInfo.id).reverse ++ seen) := by
  intro ms
  induction ms with
  | nil => intro seen _ _ _; simp [xmlScanMembers]
  | cons m rest ih =>
    intro seen hid hseen hnd
    have hm : m.id ≠ "" ∧ m.id ∉ seen :=
      ⟨hid m (List.mem_cons_self _ _), hseen m (List.mem_cons_self _ _)⟩
    simp only [List.map_cons, List.nodup_cons] at hnd
    have hrec := ih (m.id :: seen)
      (fun x hx => hid x (List.mem_cons_of_mem _ hx))
      (fun x hx => by
        intro hcon
        rcases List.mem_cons.1 hcon with h | h
        · exact hnd.1 (h ▸ List.mem_map_of_mem SymbolInfo.id hx)
        · exact hseen x (List.mem_cons_of_mem _ hx) h)
      hnd.2
    simp only [xmlScanMembers]
    rw [if_pos hm, hrec]
    simp [List.reverse_cons, List.append_assoc]

theorem docStream_cons (fix : Fixture) (r : String) (rs : List String) :
    docStream fix (r :: rs)
      = (match lookupDoc fix r with
          | none => []
          | some doc => doc.members) ++ docStream fix rs := by
  simp [docStream]

theorem xmlScanRefids_eq (fix : Fixture) :
    ∀ (refids : List String) (seen : List String),
      (∀ m ∈ docStream fix refids, m.id ≠ "") →
      (∀ m ∈ docStream fix refids, m.id ∉ seen) →
      ((docStream fix refids).map SymbolInfo.id).Nodup →
      xmlScanRefids fix refids seen = docStream fix refids := by
  intro refids
  induction refids with
  | nil => intro seen _ _ _; rfl
  | cons r rs ih =>
    intro seen hid hseen hnd
    rw [docStream_cons] at hid hseen hnd ⊢
    cases hdoc : lookupDoc fix r with
    | none =>
      simp only [hdoc, List.nil_append] at hid hseen hnd
      simp only [xmlScanRefids, hdoc]
      exact ih seen hid hseen hnd
    | some doc =>
      simp only [hdoc] at hid hseen hnd ⊢
      rw [List.map_append, List.nodup_append] at hnd
      have hscan := xmlScanMembers_all doc.members seen
        (fun x hx => hid x (List.mem_append_left _ hx))
        (fun x hx => hseen x (List.mem_append_left _ hx))
        hnd.1
      simp only [xmlScanRefids, hdoc, hscan]
      have hrec := ih ((doc.members.map SymbolInfo.id).reverse ++ seen)
        (fun x hx => hid x (List.mem_append_right _ hx))
        (fun x hx => by
          intro hcon
          rcases List.mem_append.1 hcon with h | h
          · rw [List.mem_reverse] at h
            exact hnd.2.2 h (List.mem_map_of_mem SymbolInfo.id hx)
          · exact hseen x (List.mem_append_right _ hx) h)
        hnd.2.1
      rw [hrec]

theorem sqlInsertMembers_all :
    ∀ (ms : List SymbolInfo) (rows : List SymRow) (refs : List RefRow),
      (∀ m ∈ ms, ∀ r ∈ rows, r.id ≠ m.id) → (ms.map SymbolInfo.id).Nodup →
      sqlInsertMembers rows refs ms
        = (rows ++ ms.map memberRowOf, refs ++ (ms.map refRowsOf).flatten) := by
  intro ms
  induction ms with
  | nil => intro rows refs _ _; simp [sqlInsertMembers]
  | cons m rest ih =>
    intro rows refs hdisj hnd
    simp only [List.map_cons, List.nodup_cons] at hnd
    have hins : insertOrIgnore rows (memberRowOf m) = rows ++ [memberRowOf m] := by
      unfold insertOrIgnore
      rw [if_neg]
      intro hcon
      rw [List.any_eq_true] at hcon
      obtain ⟨r, hr, hp⟩ := hcon
      rw [decide_eq_true_eq] at hp
      exact hdisj m (List.mem_cons_self _ _) r hr hp
    simp only [sqlInsertMembers, hins]
    rw [ih (rows ++ [memberRowOf m]) (refs ++ refRowsOf m)
      (fun x hx r hr => by
        rcases List.mem_append.1 hr with h | h
        · exact hdisj x (List.mem_cons_of_mem _ hx) r h
        · rcases List.mem_singleton.1 h with rfl
          show (memberRowOf m).id ≠ x.id
          intro hcon
          have hcon2 : m.id = x.id := hcon
          exact hnd.1 (hcon2 ▸ List.mem_map_of_mem SymbolInfo.id hx)
      ) hnd.2]
    simp [List.append_assoc]

theorem refRowsOf_filter_other (m : SymbolInfo) (dirStr : String) :
    ∀ (rest : List SymbolInfo), (∀ x ∈ rest, x.id ≠ m.id) →
      ((rest.map refRowsOf).flatten.filter (fun x =>
          decide (x.from_id = m.id) && decide (x.direction = dirStr))) = [] := by
  intro rest
  induction rest with
  | nil => intro _; rfl
  | cons a tail ih =>
    intro h
    simp only [List.map_cons, List.flatten_cons, List.filter_append]
    rw [ih (fun x hx => h x (List.mem_cons_of_mem _ hx)), List.append_nil]
    rw [List.filter_eq_nil_iff]
    intro row hrow
    have hfrom : row.from_id = a.id := by
      simp only [refRowsOf, List.mem_append, List.mem_map] at hrow
      rcases hrow with ⟨t, _, rfl⟩ | ⟨t, _, rfl⟩ <;> rfl
    simp only [hfrom, Bool.and_eq_true, decide_eq_true_eq]
    intro hcon
    exact h a (List.mem_cons_self _ _) hcon.1

theorem refRowsOf_self_calls (m : SymbolInfo) :
    ((refRowsOf m).filter (fun x =>
        decide (x.from_id = m.id) && decide (x.direction = "calls"))).map RefRow.to_name
      = m.references := by
  simp only [refRowsOf, List.filter_append]
  have h1 : (m.references.map (fun t => (⟨m.id, t, "calls"⟩ : RefRow))).filter
      (fun x => decide (x.from_id = m.id) && decide (x.direction = "calls"))
      = m.references.map (fun t => (⟨m.id, t, "calls"⟩ : RefRow)) := by
    rw [List.filter_eq_self]
    intro row hrow
    simp only [List.mem_map] at hrow
    obtain ⟨t, _, rfl⟩ := hrow
    simp
  have h2 : (m.referenced_by.map (fun t => (⟨m.id, t, "callers"⟩ : RefRow))).filter
      (fun x => decide (x.from_id = m.id) && decide (x.direction = "calls")) = [] := by
    rw [List.filter_eq_nil_iff]
    intro row hrow
    simp only [List.mem_map] at hrow
    obtain ⟨t, _, rfl⟩ := hrow
    simp
  rw [h1, h2, List.append_nil]
  have hmm : ∀ (l : List String),
      (l.map (fun t => (⟨m.id, t, "calls"⟩ : RefRow))).map RefRow.to_name = l := by
    intro l
    induction l with
    | nil => rfl
    | cons t ts ihl => simp only [List.map_cons, ihl]
  exact hmm m.references

theorem refRowsOf_self_callers (m : SymbolInfo) :
    ((refRowsOf m).filter (fun x =>
        decide (x.from_id = m.id) && decide (x.direction = "callers"))).map RefRow.to_name
      = m.referenced_by := by
  simp only [refRowsOf, List.filter_append]
  have h1 : (m.references.map (fun t => (⟨m.id, t, "calls"⟩ : RefRow))).filter
      (fun x => decide (x.from_id = m.id) && decide (x.direction = "callers")) = [] := by
    rw [List.filter_eq_nil_iff]
    intro row hrow
    simp only [List.mem_map] at hrow
    obtain ⟨t, _, rfl⟩ := hrow
    simp
  have h2 : (m.referenced_by.map (fun t => (⟨m.id, t, "callers"⟩ : RefRow))).filter
      (fun x => decide (x.from_id = m.id) && decide (x.direction = "callers"))
      = m.referenced_by.map (fun t => (⟨m.id, t, "callers"⟩ : RefRow)) := by
    rw [List.filter_eq_self]
    intro row hrow
    simp only [List.mem_map] at hrow
    obtain ⟨t, _, rfl⟩ := hrow
    simp
  rw [h1, h2, List.nil_append]
  have hmm : ∀ (l : List String),
      (l.map (fun t => (⟨m.id, t, "callers"⟩ : RefRow))).map RefRow.to_name = l := by
    intro l
    induction l with
    | nil => rfl
    | cons t ts ihl => simp only [List.map_cons, ihl]
  exact hmm m.referenced_by

theorem stream_refs_filter (dirStr : String) (proj : SymbolInfo → List String)
    (hproj : ∀ m : SymbolInfo,
      ((refRowsOf m).filter (fun x =>
        decide (x.from_id = m.id) && decide (x.direction = dirStr))).map RefRow.to_name
        = proj m) :
    ∀ (stream : List SymbolInfo) (m : SymbolInfo), m ∈ stream →
      (stream.map SymbolInfo.id).Nodup →
      ((stream.map refRowsOf).flatten.filter (fun x =>
          decide (x.from_id = m.id) && decide (x.direction = dirStr))).map RefRow.to_name
        = proj m := by
  intro stream
  induction stream with
  | nil => intro m hm; exact absurd hm (List.not_mem_nil m)
  | cons a tail ih =>
    intro m hm hnd
    simp only [List.map_cons, List.nodup_cons] at hnd
    simp only [List.map_cons, List.flatten_cons, List.filter_append, List.map_append]
    rcases List.mem_cons.1 hm with rfl | hmem
    · rw [refRowsOf_filter_other m dirStr tail (fun x hx => by
        intro hcon
        exact hnd.1 (hcon ▸ List.mem_map_of_mem SymbolInfo.id hx))]
      rw [hproj m]
      simp
    · have hane : a.id ≠ m.id := by
        intro hcon
        exact hnd.1 (hcon ▸ List.mem_map_of_mem SymbolInfo.id hmem)
      have h1 : ((refRowsOf a).filter (fun x =>
          decide (x.from_id = m.id) && decide (x.direction = dirStr))) = [] := by
        rw [List.filter_eq_nil_iff]
        intro row hrow
        have hfrom : row.from_id = a.id := by
          simp only [refRowsOf, List.mem_append, List.mem_map] at hrow
          rcases hrow with ⟨t, _, rfl⟩ | ⟨t, _, rfl⟩ <;> rfl
        simp only [hfrom, Bool.and_eq_true, decide_eq_true_eq]
        intro hcon
        exact hane hcon.1
      rw [h1]
      simp only [List.map_nil, List.nil_append]
      exact ih m hmem hnd.2

/-- Fixture well-formedness, satisfied by real Doxygen output: index member
entries are named; parsed memberdefs have non-empty ids; member ids never
collide with compound refids; and member ids are globally unique across the
parsed detail files. -/
def FixtureWF (fix : Fixture) : Prop :=
  (∀ c ∈ fix.compounds, ∀ me ∈ c.members, me.name ≠ "") ∧
  (∀ m ∈ docStream fix (sqlCompoundRefids fix), m.id ≠ "") ∧
  (∀ m ∈ docStream fix (sqlCompoundRefids fix), ∀ c ∈ fix.compounds, m.id ≠ c.refid) ∧
  ((docStream fix (sqlCompoundRefids fix)).map SymbolInfo.id).Nodup

instance (fix : Fixture) : Decidable (FixtureWF fix) := by
  unfold FixtureWF
  infer_instance

theorem map_self {α : Type} (f : α → α) :
    ∀ l : List α, (∀ a ∈ l, f a = a) → l.map f = l := by
  intro l
  induction l with
  | nil => intro _; rfl
  | cons a rest ih =>
    intro h
    rw [List.map_cons, h a (List.mem_cons_self _ _),
      ih (fun x hx => h x (List.mem_cons_of_mem _ hx))]

theorem rowToSymbol_memberRow (db : DB) (m : SymbolInfo)
    (hcalls : (db.refs.filter (fun x =>
        decide (x.from_id = m.id) && decide (x.direction = "calls"))).map RefRow.to_name
      = m.references)
    (hcallers : (db.refs.filter (fun x =>
        decide (x.from_id = m.id) && decide (x.direction = "callers"))).map RefRow.to_name
      = m.referenced_by) :
    rowToSymbol db (memberRowOf m) = m := by
  cases m with
  | mk id name kind file line bs be rt ps br dt refs rby =>
    simp only [rowToSymbol, memberRowOf] at *
    simp [hcalls, hcallers]

theorem insertOrIgnore_mem {rows : List SymRow} {x r : SymRow}
    (h : r ∈ insertOrIgnore rows x) : r ∈ rows ∨ r = x := by
  unfold insertOrIgnore at h
  split at h
  · exact Or.inl h
  · rcases List.mem_append.1 h with h | h
    · exact Or.inl h
    · exact Or.inr (List.mem_singleton.1 h)

theorem sqlCompoundRows_inv (fix : Fixture) (Q : SymRow → Prop)
    (hQ : ∀ c ∈ fix.compounds, Q (compoundRowOf c)) :
    ∀ r ∈ sqlCompoundRows fix, Q r := by
  unfold sqlCompoundRows
  suffices h : ∀ (cs : List IndexCompound) (acc : List SymRow),
      (∀ r ∈ acc, Q r) → (∀ c ∈ cs, Q (compoundRowOf c)) →
      ∀ r ∈ cs.foldl (fun rows c =>
        if c.name ≠ "" then insertOrIgnore rows (compoundRowOf c) else rows) acc, Q r by
    intro r hr
    exact h fix.compounds [] (by simp) hQ r hr
  intro cs
  induction cs with
  | nil => intro acc hacc _ r hr; exact hacc r hr
  | cons c rest ih =>
    intro acc hacc hcs
    rw [List.foldl_cons]
    apply ih
    · intro r hr
      by_cases hn : c.name ≠ ""
      · rw [if_pos hn] at hr
        rcases insertOrIgnore_mem hr with h | rfl
        · exact hacc r h
        · exact hcs c (List.mem_cons_self _ _)
      · rw [if_neg hn] at hr
        exact hacc r hr
    · intro c' hc'
      exact hcs c' (List.mem_cons_of_mem _ hc')

theorem buildDb_decomp (fix : Fixture) (h : FixtureWF fix) :
    (buildDb fix).symbols
      = (sqlCompoundRows fix
          ++ (docStream fix (sqlCompoundRefids fix)).map memberRowOf).map
          (fun r => (compoundKindItems fix).foldl (stepLoc fix) r)
    ∧ (buildDb fix).refs = ((docStream fix (sqlCompoundRefids fix)).map refRowsOf).flatten := by
  have h3 := h.2.2.1
  have h4 := h.2.2.2
  have hdisj : ∀ m ∈ docStream fix (sqlCompoundRefids fix),
      ∀ r ∈ sqlCompoundRows fix, r.id ≠ m.id := by
    intro m hm r hr
    have hQ := sqlCompoundRows_inv fix (fun r => ∃ c ∈ fix.compounds, r.id = c.refid)
      (fun c hc => ⟨c, hc, rfl⟩) r hr
    obtain ⟨c, hc, hid⟩ := hQ
    rw [hid]
    intro hcon
    exact h3 m hm c hc hcon.symm
  have hins := sqlInsertMembers_all (docStream fix (sqlCompoundRefids fix))
    (sqlCompoundRows fix) [] hdisj h4
  constructor
  · show (sqlUpdateCompoundLoc fix
        (sqlInsertMembers (sqlCompoundRows fix) []
          (docStream fix (sqlCompoundRefids fix))).1) = _
    rw [hins]
    rfl
  · show (sqlInsertMembers (sqlCompoundRows fix) []
        (docStream fix (sqlCompoundRefids fix))).2 = _
    rw [hins]
    exact List.nil_append _

theorem stepLoc_keeps_id (fix : Fixture) (r : SymRow) (p : String × String) :
    (stepLoc fix r p).id = r.id := by
  unfold stepLoc
  repeat' split
  all_goals rfl

theorem stepLoc_keeps_isc (fix : Fixture) (r : SymRow) (p : String × String) :
    (stepLoc fix r p).is_compound = r.is_compound := by
  unfold stepLoc
  repeat' split
  all_goals rfl

theorem foldl_stepLoc_keeps_id (fix : Fixture) (items : List (String × String)) :
    ∀ r : SymRow, (items.foldl (stepLoc fix) r).id = r.id := by
  induction items with
  | nil => intro r; rfl
  | cons p rest ih =>
    intro r
    rw [List.foldl_cons, ih (stepLoc fix r p), stepLoc_keeps_id]

theorem foldl_stepLoc_keeps_isc (fix : Fixture) (items : List (String × String)) :
    ∀ r : SymRow, (items.foldl (stepLoc fix) r).is_compound = r.is_compound := by
  induction items with
  | nil => intro r; rfl
  | cons p rest ih =>
    intro r
    rw [List.foldl_cons, ih (stepLoc fix r p), stepLoc_keeps_isc]

theorem stepLoc_noop (fix : Fixture) (r : SymRow) (p : String × String) (h : r.id ≠ p.1) :
    stepLoc fix r p = r := by
  unfold stepLoc
  repeat' split
  all_goals first
  | rfl
  | (rename_i hand; exact absurd hand.2 h)

theorem dedupFirstAux_subset :
    ∀ (l seen : List String) (x : String), x ∈ dedupFirstAux seen l → x ∈ l := by
  intro l
  induction l with
  | nil => intro seen x hx; exact absurd hx (List.not_mem_nil x)
  | cons y ys ih =>
    intro seen x hx
    rw [dedupFirstAux_cons] at hx
    split at hx
    · exact List.mem_cons_of_mem _ (ih seen x hx)
    · rcases List.mem_cons.1 hx with rfl | hx
      · exact List.mem_cons_self _ _
      · exact List.mem_cons_of_mem _ (ih (y :: seen) x hx)

theorem compoundKindItems_keys (fix : Fixture) (p : String × String)
    (hp : p ∈ compoundKindItems fix) : ∃ c ∈ fix.compounds, p.1 = c.refid := by
  unfold compoundKindItems at hp
  simp only [List.mem_map] at hp
  obtain ⟨k, hk, rfl⟩ := hp
  have hmem := dedupFirstAux_subset _ [] k hk
  simp only [List.map_map, List.mem_map, Function.comp] at hmem
  obtain ⟨c, hc, rfl⟩ := hmem
  exact ⟨c, hc, rfl⟩

theorem foldl_stepLoc_noop (fix : Fixture) (r : SymRow)
    (h : ∀ c ∈ fix.compounds, r.id ≠ c.refid) :
    (compoundKindItems fix).foldl (stepLoc fix) r = r := by
  have hgen : ∀ (items : List (String × String)), (∀ p ∈ items, r.id ≠ p.1) →
      items.foldl (stepLoc fix) r = r := by
    intro items
    induction items with
    | nil => intro _; rfl
    | cons p rest ih =>
      intro hh
      rw [List.foldl_cons, stepLoc_noop fix r p (hh p (List.mem_cons_self _ _))]
      exact ih (fun q hq => hh q (List.mem_cons_of_mem _ hq))
  apply hgen
  intro p hp
  obtain ⟨c, hc, hpc⟩ := compoundKindItems_keys fix p hp
  rw [hpc]
  exact h c hc

theorem filter_over_map {α β : Type} (f : α → β) (p : β → Bool) :
    ∀ l : List α, (l.map f).filter p = (l.filter (fun a => p (f a))).map f := by
  intro l
  induction l with
  | nil => rfl
  | cons a rest ih =>
    simp only [List.map_cons, List.filter_cons]
    by_cases hp : p (f a) = true
    · rw [if_pos hp, if_pos hp, List.map_cons, ih]
    · rw [if_neg hp, if_neg hp, ih]

theorem orderedInsert_map {α β : Type} (f : α → β) (r : α → α → Prop) (r' : β → β → Prop)
    [DecidableRel r] [DecidableRel r'] (hf : ∀ a b, r' (f a) (f b) ↔ r a b) (a : α) :
    ∀ l : List α, List.orderedInsert r' (f a) (l.map f) = (List.orderedInsert r a l).map f := by
  intro l
  induction l with
  | nil => rfl
  | cons b t ih =>
    simp only [List.map_cons, List.orderedInsert]
    by_cases hr : r a b
    · rw [if_pos ((hf a b).2 hr), if_pos hr, List.map_cons, List.map_cons]
    · rw [if_neg (fun hc => hr ((hf a b).1 hc)), if_neg hr, List.map_cons, ih]

theorem insertionSort_map {α β : Type} (f : α → β) (r : α → α → Prop) (r' : β → β → Prop)
    [DecidableRel r] [DecidableRel r'] (hf : ∀ a b, r' (f a) (f b) ↔ r a b) :
    ∀ l : List α, List.insertionSort r' (l.map f) = (List.insertionSort r l).map f := by
  intro l
  induction l with
  | nil => rfl
  | cons a t ih =>
    simp only [List.map_cons, List.insertionSort, ih, orderedInsert_map f r r' hf a]

theorem buildDb_memberRows (fix : Fixture) (h : FixtureWF fix) :
    (buildDb fix).symbols.filter (fun r => !r.is_compound)
      = (docStream fix (sqlCompoundRefids fix)).map memberRowOf := by
  rw [(buildDb_decomp fix h).1, filter_over_map, List.filter_append]
  have hcomp : (sqlCompoundRows fix).filter
      (fun r => !((compoundKindItems fix).foldl (stepLoc fix) r).is_compound) = [] := by
    rw [List.filter_eq_nil_iff]
    intro r hr
    have hc := sqlCompoundRows_inv fix (fun r => r.is_compound = true) (fun c _ => rfl) r hr
    rw [foldl_stepLoc_keeps_isc, hc]
    simp
  have hmem : ((docStream fix (sqlCompoundRefids fix)).map memberRowOf).filter
      (fun r => !((compoundKindItems fix).foldl (stepLoc fix) r).is_compound)
      = (docStream fix (sqlCompoundRefids fix)).map memberRowOf := by
    rw [List.filter_eq_self]
    intro r hr
    rw [foldl_stepLoc_keeps_isc]
    simp only [List.mem_map] at hr
    obtain ⟨m, _, rfl⟩ := hr
    rfl
  rw [hcomp, hmem, List.nil_append]
  apply map_self
  intro r hr
  simp only [List.mem_map] at hr
  obtain ⟨m, hm, rfl⟩ := hr
  apply foldl_stepLoc_noop
  intro c hc
  show (memberRowOf m).id ≠ c.refid
  exact h.2.2.1 m hm c hc

theorem buildDb_memberSyms (fix : Fixture) (h : FixtureWF fix) :
    ((buildDb fix).symbols.filter (fun r => !r.is_compound)).map (rowToSymbol (buildDb fix))
      = docStream fix (sqlCompoundRefids fix) := by
  rw [buildDb_memberRows fix h, List.map_map]
  apply map_self
  intro m hm
  show rowToSymbol (buildDb fix) (memberRowOf m) = m
  apply rowToSymbol_memberRow
  · rw [(buildDb_decomp fix h).2]
    exact stream_refs_filter "calls" SymbolInfo.references refRowsOf_self_calls _ m hm h.2.2.2
  · rw [(buildDb_decomp fix h).2]
    exact stream_refs_filter "callers" SymbolInfo.referenced_by refRowsOf_self_callers _ m hm
      h.2.2.2

theorem xmlAllSymbols_eq_stream (fix : Fixture) (h : FixtureWF fix) :
    xmlGetAllSymbols fix "" = docStream fix (sqlCompoundRefids fix) := by
  simp only [xmlGetAllSymbols, ne_eq, not_true_eq_false, if_false]
  rw [refids_eq fix h.1]
  exact xmlScanRefids_eq fix (sqlCompoundRefids fix) [] h.2.1 (by simp) h.2.2.2

theorem sqlAllSymbols_eq_stream (fix : Fixture) (h : FixtureWF fix) :
    sqlGetAllSymbols (buildDb fix) "" = docStream fix (sqlCompoundRefids fix) := by
  simp only [sqlGetAllSymbols, ne_eq, not_true_eq_false, if_false]
  exact buildDb_memberSyms fix h

theorem sqlSymbolsInFile_eq_stream (fix : Fixture) (h : FixtureWF fix) (path : String) :
    sqlSymbolsInFile (buildDb fix) path
      = ((((docStream fix (sqlCompoundRefids fix)).filter
          (fun s => decide (s.file = path))).insertionSort
            (fun (a b : SymbolInfo) => a.line ≤ b.line)).map memberRowOf).map
          (rowToSymbol (buildDb fix)) := by
  unfold sqlSymbolsInFile
  have hsplit : (buildDb fix).symbols.filter (fun r =>
      (match r.file with | none => false | some f => decide (f = path)) && !r.is_compound)
      = ((buildDb fix).symbols.filter (fun r => !r.is_compound)).filter
          (fun r => match r.file with | none => false | some f => decide (f = path)) := by
    rw [List.filter_filter]
  rw [hsplit, buildDb_memberRows fix h, filter_over_map]
  have hpred : (docStream fix (sqlCompoundRefids fix)).filter
      (fun m => match (memberRowOf m).file with | none => false | some f => decide (f = path))
      = (docStream fix (sqlCompoundRefids fix)).filter (fun s => decide (s.file = path)) := by
    apply List.filter_congr
    intro m _
    rfl
  rw [hpred]
  rw [insertionSort_map memberRowOf (fun a b => a.line ≤ b.line)
    (fun a b => a.line.getD 0 ≤ b.line.getD 0) (fun a b => Iff.rfl)]

theorem symbolsInFile_eq (fix : Fixture) (h : FixtureWF fix) (path : String) :
    xmlSymbolsInFile fix path = sqlSymbolsInFile (buildDb fix) path := by
  rw [sqlSymbolsInFile_eq_stream fix h path]
  unfold xmlSymbolsInFile
  rw [xmlAllSymbols_eq_stream fix h, List.map_map]
  have hsorted := (List.perm_insertionSort (fun a b => a.line ≤ b.line)
    ((docStream fix (sqlCompoundRefids fix)).filter (fun s => decide (s.file = path))))
  rw [eq_comm]
  apply map_self
  intro m hm
  have hm2 : m ∈ (docStream fix (sqlCompoundRefids fix)).filter
      (fun s => decide (s.file = path)) := hsorted.mem_iff.1 hm
  have hm3 : m ∈ docStream fix (sqlCompoundRefids fix) := List.mem_of_mem_filter hm2
  show rowToSymbol (buildDb fix) (memberRowOf m) = m
  apply rowToSymbol_memberRow
  · rw [(buildDb_decomp fix h).2]
    exact stream_refs_filter "calls" SymbolInfo.references refRowsOf_self_calls _ m hm3 h.2.2.2
  · rw [(buildDb_decomp fix h).2]
    exact stream_refs_filter "callers" SymbolInfo.referenced_by refRowsOf_self_callers _ m hm3
      h.2.2.2

theorem stats_eq (fix : Fixture) (h : FixtureWF fix) :
    xmlGetStats fix = sqlGetStats (buildDb fix) := by
  simp only [xmlGetStats, sqlGetStats]
  rw [xmlAllSymbols_eq_stream fix h, buildDb_memberRows fix h]
  have hkind : ((docStream fix (sqlCompoundRefids fix)).map memberRowOf).map SymRow.kind
      = (docStream fix (sqlCompoundRefids fix)).map (fun s => s.kind) := by
    rw [List.map_map]
    rfl
  have hfile : (((docStream fix (sqlCompoundRefids fix)).map memberRowOf).filter
        (fun r => match r.file with | none => false | some f => decide (f ≠ ""))).map
        (fun r => r.file.getD "")
      = ((docStream fix (sqlCompoundRefids fix)).filter
          (fun s => decide (s.file ≠ ""))).map (fun s => s.file) := by
    rw [filter_over_map, List.map_map]
    rfl
  rw [hkind, hfile, List.length_map]

theorem charLtB_trans {a b c : Char} (h1 : charLtB a b = true) (h2 : charLtB b c = true) :
    charLtB a c = true := by
  simp only [charLtB, decide_eq_true_eq] at *
  omega

theorem charLtB_false_antisymm {a b : Char} (h1 : charLtB a b = false)
    (h2 : charLtB b a = false) : a = b := by
  simp only [charLtB, decide_eq_false_iff_not, Nat.not_lt] at h1 h2
  exact Char.ext (UInt32.ext (Nat.le_antisymm h2 h1))

theorem charListLt_connex : ∀ xs ys : List Char,
    charListLt xs ys = false → charListLt ys xs = false → xs = ys := by
  intro xs
  induction xs with
  | nil =>
    intro ys h1 _
    cases ys with
    | nil => rfl
    | cons y ys' => simp [charListLt] at h1
  | cons x xs' ih =>
    intro ys h1 h2
    cases ys with
    | nil => simp [charListLt] at h2
    | cons y ys' =>
      simp only [charListLt] at h1 h2
      cases hxy : charLtB x y with
      | true => simp [hxy] at h1
      | false =>
        cases hyx : charLtB y x with
        | true => simp [hyx] at h2
        | false =>
          have hxy2 : x = y := charLtB_false_antisymm hxy hyx
          subst hxy2
          simp only [hxy, Bool.false_eq_true, if_false] at h1 h2
          rw [ih ys' h1 h2]

theorem charListLt_trans : ∀ xs ys zs : List Char,
    charListLt xs ys = true → charListLt ys zs = true → charListLt xs zs = true := by
  intro xs
  induction xs with
  | nil =>
    intro ys zs h1 h2
    cases ys with
    | nil => exact absurd h1 (by simp [charListLt])
    | cons y ys' =>
      cases zs with
      | nil => exact absurd h2 (by simp [charListLt])
      | cons z zs' => rfl
  | cons x xs' ih =>
    intro ys zs h1 h2
    cases ys with
    | nil => exact absurd h1 (by simp [charListLt])
    | cons y ys' =>
      cases zs with
      | nil => exact absurd h2 (by simp [charListLt])
      | cons z zs' =>
        simp only [charListLt] at h1 h2 ⊢
        cases hxy : charLtB x y with
        | true =>
          cases hyz : charLtB y z with
          | true => simp [charLtB_trans hxy hyz]
          | false =>
            cases hzy : charLtB z y with
            | true => simp [hyz, hzy] at h2
            | false =>
              have hyz2 : y = z := charLtB_false_antisymm hyz hzy
              subst hyz2
              simp [hxy]
        | false =>
          cases hyx : charLtB y x with
          | true => simp [hxy, hyx] at h1
          | false =>
            have hxy2 : x = y := charLtB_false_antisymm hxy hyx
            subst hxy2
            simp only [hxy, Bool.false_eq_true, if_false] at h1
            cases hxz : charLtB x z with
            | true => simp [hxz]
            | false =>
              cases hzx : charLtB z x with
              | true => simp [hxz, hzx] at h2
              | false =>
                simp only [hxz, hzx, Bool.false_eq_true, if_false] at h2 ⊢
                exact ih ys' zs' h1 h2

theorem string_eq_of_data_eq {s t : String} (h : s.data = t.data) : s = t := by
  cases s
  cases t
  exact congrArg String.mk h

/-- The sort key relation of `symbols.sort(key=lambda s: (s.file, s.line))`:
lexicographic on the (file, line) pair, files compared code-point-wise as
Python compares strings. -/
def fileLineLE (a b : SymbolInfo) : Prop :=
  strLt a.file b.file = true ∨ (a.file = b.file ∧ a.line ≤ b.line)

instance : DecidableRel fileLineLE := fun a b => by
  unfold fileLineLE
  infer_instance

instance : IsTrans SymbolInfo fileLineLE where
  trans := by
    intro a b c h1 h2
    rcases h1 with h1 | ⟨h1e, h1l⟩
    · rcases h2 with h2 | ⟨h2e, h2l⟩
      · exact Or.inl (charListLt_trans _ _ _ h1 h2)
      · exact Or.inl (h2e ▸ h1)
    · rcases h2 with h2 | ⟨h2e, h2l⟩
      · exact Or.inl (h1e ▸ h2)
      · exact Or.inr ⟨h1e.trans h2e, Nat.le_trans h1l h2l⟩

instance : IsTotal SymbolInfo fileLineLE where
  total := by
    intro a b
    cases hab : strLt a.file b.file with
    | true => exact Or.inl (Or.inl hab)
    | false =>
      cases hba : strLt b.file a.file with
      | true => exact Or.inr (Or.inl hba)
      | false =>
        have he : a.file = b.file :=
          string_eq_of_data_eq (charListLt_connex _ _ hab hba)
        rcases Nat.le_total a.line b.line with h | h
        · exact Or.inl (Or.inr ⟨he, h⟩)
        · exact Or.inr (Or.inr ⟨he.symm, h⟩)

/-- `symbols.sort(key=lambda s: (s.file, s.line))`: Python's sort is stable,
as is insertion sort, and two stable sorts for the same total preorder agree,
so this is the list the source produces. -/
def sortFileLine (l : List SymbolInfo) : List SymbolInfo :=
  l.insertionSort fileLineLE

/-- The backend operations `cmd_list`/`cmd_search` use; both
`DoxygenXMLIndex` and `DoxygenSQLiteIndex` provide them. -/
structure IndexAPI where
  getAllSymbols : String → List SymbolInfo
  getAllKinds : List String

/-- Python truthiness of the optional `--kind`/`--file` argument
(`argparse` default `None`, and the empty string, are both falsy). -/
def strTruthy : Option String → Bool
  | none => false
  | some s => decide (s ≠ "")

/-- Python `", ".join(parts)`. -/
def joinComma : List String → String
  | [] => ""
  | [x] => x
  | x :: rest => x ++ ", " ++ joinComma rest

/-- The structured `--kind` validation error of `cmd_list`. -/
structure KindError where
  error : String
  valid_kinds : List String
  hint : String
  deriving DecidableEq

/-- The filtering/sorting pipeline of `cmd_list` after validation. -/
def cmdListSymbols (api : IndexAPI) (kind fileFilter : Option String)
    (scope : String) : List SymbolInfo :=
  let symbols := api.getAllSymbols scope
  let symbols := if strTruthy kind then
      symbols.filter (fun s => decide (s.kind = kind.getD "")) else symbols
  let symbols := if strTruthy fileFilter then
      symbols.filter (fun s => strContains s.file (fileFilter.getD "")) else symbols
  sortFileLine symbols

/-- Embedding of `cmd_list(index, args)` up to pagination: validate `--kind`
against `get_all_kinds()` (only when the argument is truthy, as `if kind:`),
then filter, then sort by (file, line).  An `Except.error` models the
structured error dict plus `return 1`. -/
def cmdList (api : IndexAPI) (kind fileFilter : Option String)
    (scope : String) : Except KindError (List SymbolInfo) :=
  if strTruthy kind ∧ kind.getD "" ∉ api.getAllKinds then
    .error { error := "Unknown kind: " ++ kind.getD "",
             valid_kinds := api.getAllKinds,
             hint := "Use one of: " ++ joinComma api.getAllKinds }
  else .ok (cmdListSymbols api kind fileFilter scope)

/-- A one-function fixture index for the CLI-level claims. -/
def funcSym : SymbolInfo :=
  { id := "f_main", name := "main", kind := "function", file := "main.c", line := 3 }

/-- A concrete `IndexAPI` whose only kind is `function`. -/
def apiEx : IndexAPI :=
  { getAllSymbols := fun _ => [funcSym], getAllKinds := ["function"] }

/-- C6 counterexample: filtering `list` by the kind string `""` — which is
not in `get_all_kinds()` — does NOT return a validation error: `if kind:`
treats the empty string as "no filter given", skips validation and the
filter, and the command succeeds, refuting "filtering the list operation by
a kind string not present in get_all_kinds() returns a validation error". -/
theorem kind_validation_empty_cex :
    cmdList apiEx (some "") none "" = Except.ok [funcSym] ∧
    ("" ∈ apiEx.getAllKinds → False) := by
  constructor
  · rfl
  · decide

/-- C6 (amended): filtering `list` by a NON-EMPTY kind string not present in
`get_all_kinds()` returns a validation error whose `valid_kinds` field
exactly equals `get_all_kinds()`'s output, and filtering by any kind string
present in `get_all_kinds()` never produces an error; the empty kind string
is treated as "no filter" and silently succeeds
(`kind_validation_empty_cex`). -/
theorem kind_validation (api : IndexAPI) (k : String) (fileFilter : Option String)
    (scope : String) :
    (k ≠ "" → k ∉ api.getAllKinds →
      cmdList api (some k) fileFilter scope
        = .error { error := "Unknown kind: " ++ k, valid_kinds := api.getAllKinds,
                   hint := "Use one of: " ++ joinComma api.getAllKinds }) ∧
    (k ∈ api.getAllKinds →
      ∃ res, cmdList api (some k) fileFilter scope = .ok res) := by
  constructor
  · intro hne hnotin
    unfold cmdList
    rw [if_pos (show strTruthy (some k) = true ∧ (some k).getD "" ∉ api.getAllKinds from
      ⟨by simpa [strTruthy] using hne, by simpa using hnotin⟩)]
    rfl
  · intro hin
    unfold cmdList
    rw [if_neg]
    · exact ⟨_, rfl⟩
    · intro hcon
      exact hcon.2 (by simpa using hin)

/-- Witness for `kind_validation`: an unknown non-empty kind errors with the
full valid-kind list; a known kind succeeds. -/
theorem kind_validation_witness :
    (cmdList apiEx (some "variable") none ""
      = .error { error := "Unknown kind: " ++ "variable", valid_kinds := ["function"],
                 hint := "Use one of: " ++ joinComma ["function"] }) ∧
    ∃ res, cmdList apiEx (some "function") none "" = .ok res :=
  ⟨(kind_validation apiEx "variable" none "").1 (by decide) (by decide),
   (kind_validation apiEx "function" none "").2 (by decide)⟩

/-- A JSON value of a serialized symbol dict (each `SymbolInfo` field is a
string, an int, or a list of strings). -/
inductive JVal where
  | s (v : String)
  | n (v : Nat)
  | arr (v : List String)
  deriving DecidableEq

/-- Python truthiness of a serialized field value (`if v` in the dict
comprehension): empty strings, zero, and empty lists are falsy. -/
def jTruthy : JVal → Bool
  | .s v => decide (v ≠ "")
  | .n v => decide (v ≠ 0)
  | .arr v => !v.isEmpty

/-- Embedding of `symbol_to_dict(sym, compact)`: `asdict` field order, and in
compact mode only the truthy fields are kept. -/
def symbolToDict (sym : SymbolInfo) (compact : Bool) : List (String × JVal) :=
  let d : List (String × JVal) :=
    [("id", .s sym.id), ("name", .s sym.name), ("kind", .s sym.kind),
     ("file", .s sym.file), ("line", .n sym.line),
     ("body_start", .n sym.body_start), ("body_end", .n sym.body_end),
     ("return_type", .s sym.return_type), ("params", .s sym.params),
     ("brief", .s sym.brief), ("detailed", .s sym.detailed),
     ("references", .arr sym.references), ("referenced_by", .arr sym.referenced_by)]
  if compact then d.filter (fun p => jTruthy p.2) else d

/-- The JSON output path of `cmd_list`: validation and the
filter/sort pipeline (`cmdList`), then `_paginate`, then per-record
serialization (`symbol_to_dict(s, compact)` over the page only). -/
def cmdListJson (api : IndexAPI) (kind fileFilter : Option String) (scope : String)
    (limit offset : Nat) (compact : Bool) :
    Except KindError (PageMeta × List (List (String × JVal))) :=
  match cmdList api kind fileFilter scope with
  | .error e => .error e
  | .ok symbols =>
    let pm := paginate symbols limit offset
    .ok (pm.2, pm.1.map (fun s => symbolToDict s compact))

/-- C8: enabling compact mode only strips the falsy fields from each
serialized record after pagination: the compact output is exactly the
non-compact output with each record's falsy fields filtered away — same
error behaviour, same pagination metadata, same records in the same
order. -/
theorem compact_presentation_only (api : IndexAPI) (kind fileFilter : Option String)
    (scope : String) (limit offset : Nat) :
    cmdListJson api kind fileFilter scope limit offset true
      = Except.map (fun r => (r.1, r.2.map (List.filter (fun p => jTruthy p.2))))
          (cmdListJson api kind fileFilter scope limit offset false) := by
  unfold cmdListJson
  cases cmdList api kind fileFilter scope with
  | error e => rfl
  | ok symbols =>
    simp only [Except.map, List.map_map]
    rfl

/-- The structured error of `cmd_search` on an invalid regex. -/
structure SearchError where
  error : String
  deriving DecidableEq

/-- The glob-to-regex conversion of `cmd_search`:
`.lower()`ed pattern with `.` escaped, `*` → `.*`, `?` → `.` (the chained
`str.replace` calls touch only original characters, so a per-character map
is the same rewrite). -/
def globToRegex (s : String) : String :=
  ⟨(s.data.map (fun c =>
      if c = '.' then ['\\', '.']
      else if c = '*' then ['.', '*']
      else if c = '?' then ['.'] else [c])).flatten⟩

/-- Embedding of `cmd_search(index, args)` (results path).  The Python `re`
standard library is external to this repository and is abstracted as the
oracle `compileRe`: `re.compile(p)` either raises (`Except.error` with the
exception text) or yields a matcher used as `regex.search(s.name)`
(case-insensitivity lives inside the oracle).  An `Except.error` result
models the structured `{"error": ...}` dict plus `return 1` — the function
returns before computing any matches, so no partial output precedes it. -/
def cmdSearch (api : IndexAPI) (compileRe : String → Except String (String → Bool))
    (pattern : String) (regexMode : Bool) (scope : String) (limit offset : Nat) :
    Except SearchError (List SymbolInfo × PageMeta) :=
  let symbols := api.getAllSymbols scope
  if regexMode then
    match compileRe pattern with
    | .error e => .error { error := "Invalid regex: " ++ e }
    | .ok regex =>
      let ms := symbols.filter (fun s => regex s.name)
      let sorted := sortFileLine ms
      let pm := paginate sorted limit offset
      .ok (pm.1, pm.2)
  else
    let patLower := asciiLower pattern
    let ms :=
      if strContains patLower "*" || strContains patLower "?" then
        match compileRe ("^" ++ globToRegex patLower ++ "$") with
        | .ok regex => symbols.filter (fun s => regex s.name)
        | .error _ => symbols.filter (fun s => strContains (asciiLower s.name) patLower)
      else symbols.filter (fun s => strContains (asciiLower s.name) patLower)
    let sorted := sortFileLine ms
    let pm := paginate sorted limit offset
    .ok (pm.1, pm.2)

theorem paginate_page_def {α : Type} (items : List α) (limit offset : Nat) :
    (paginate items limit offset).1
      = if 0 < limit then (items.drop offset).take limit else items.drop offset := by
  simp only [paginate]
  split <;> (split <;> rfl)

theorem paginate_page_sublist {α : Type} (items : List α) (limit offset : Nat) :
    (paginate items limit offset).1.Sublist items := by
  rw [paginate_page_def]
  split
  · exact ((items.drop offset).take_sublist limit).trans (items.drop_sublist offset)
  · exact items.drop_sublist offset

/-- C9: in regex mode, an invalid pattern (the `re.compile` oracle raising
with message `e`) makes `cmd_search` return the structured error
`{"error": "Invalid regex: " + e}` and exit non-zero, with no partial
output computed first and no uncaught exception; for a valid pattern the
returned result page is sorted by (file, line) ascending. -/
theorem search_invalid_regex_and_sorted (api : IndexAPI)
    (compileRe : String → Except String (String → Bool)) (pattern scope : String)
    (limit offset : Nat) :
    (∀ e, compileRe pattern = .error e →
      cmdSearch api compileRe pattern true scope limit offset
        = .error { error := "Invalid regex: " ++ e }) ∧
    (∀ regex, compileRe pattern = .ok regex →
      ∃ page meta, cmdSearch api compileRe pattern true scope limit offset
          = .ok (page, meta) ∧ page.Sorted fileLineLE) := by
  constructor
  · intro e he
    simp only [cmdSearch, he, if_true]
  · intro regex hre
    refine ⟨(paginate (sortFileLine ((api.getAllSymbols scope).filter
        (fun s => regex s.name))) limit offset).1,
      (paginate (sortFileLine ((api.getAllSymbols scope).filter
        (fun s => regex s.name))) limit offset).2, ?_, ?_⟩
    · simp only [cmdSearch, hre, if_true]
    · exact List.Pairwise.sublist
        (paginate_page_sublist _ limit offset)
        (List.sorted_insertionSort fileLineLE _)

/-- A `re.compile` oracle that always raises. -/
def badRe : String → Except String (String → Bool) := fun _ => .error "missing ), unterminated subpattern"

/-- A `re.compile` oracle that always succeeds with a match-all matcher. -/
def okRe : String → Except String (String → Bool) := fun _ => .ok (fun _ => true)

/-- Witness for `search_invalid_regex_and_sorted` with concrete oracles. -/
theorem search_invalid_regex_and_sorted_witness :
    (cmdSearch apiEx badRe "(" true "" 50 0
        = .error { error := "Invalid regex: " ++ "missing ), unterminated subpattern" }) ∧
    ∃ page meta, cmdSearch apiEx okRe "main" true "" 50 0 = .ok (page, meta) ∧
      page.Sorted fileLineLE :=
  ⟨(search_invalid_regex_and_sorted apiEx badRe "(" "" 50 0).1
      "missing ), unterminated subpattern" rfl,
   (search_invalid_regex_and_sorted apiEx okRe "main" "" 50 0).2 (fun _ => true) rfl⟩

theorem filterMap_congr_mem {α β : Type} (f g : α → Option β) :
    ∀ l : List α, (∀ a ∈ l, f a = g a) → l.filterMap f = l.filterMap g := by
  intro l
  induction l with
  | nil => intro _; rfl
  | cons a rest ih =>
    intro h
    rw [List.filterMap_cons, List.filterMap_cons, h a (List.mem_cons_self _ _),
      ih (fun x hx => h x (List.mem_cons_of_mem _ hx))]

theorem filterMap_flatten {α β : Type} (f : α → Option β) :
    ∀ ls : List (List α), (ls.flatten).filterMap f = (ls.map (List.filterMap f)).flatten := by
  intro ls
  induction ls with
  | nil => rfl
  | cons l rest ih =>
    rw [List.flatten_cons, List.filterMap_append, ih, List.map_cons, List.flatten_cons]

theorem filter_flatten {α : Type} (p : α → Bool) :
    ∀ ls : List (List α), (ls.flatten).filter p = (ls.map (List.filter p)).flatten := by
  intro ls
  induction ls with
  | nil => rfl
  | cons l rest ih =>
    rw [List.flatten_cons, List.filter_append, ih, List.map_cons, List.flatten_cons]

theorem dedupFirstAux_of_nodup :
    ∀ (l seen : List String), l.Nodup → (∀ x ∈ l, x ∉ seen) → dedupFirstAux seen l = l := by
  intro l
  induction l with
  | nil => intro _ _ _; rfl
  | cons x xs ih =>
    intro seen hnd hseen
    rw [dedupFirstAux_cons, if_neg (hseen x (List.mem_cons_self _ _))]
    rw [List.nodup_cons] at hnd
    rw [ih (x :: seen) hnd.2]
    intro y hy
    intro hcon
    rcases List.mem_cons.1 hcon with rfl | hcon2
    · exact hnd.1 hy
    · exact hseen y (List.mem_cons_of_mem _ hy) hcon2

theorem filterMap_ite_sublist {α β : Type} (g : α → β) (q : α → Prop) [DecidablePred q] :
    ∀ l : List α, (l.filterMap (fun a => if q a then some (g a) else none)).Sublist (l.map g) := by
  intro l
  induction l with
  | nil => exact List.Sublist.refl _
  | cons a rest ih =>
    rw [List.filterMap_cons, List.map_cons]
    by_cases hq : q a
    · rw [if_pos hq]
      exact List.Sublist.cons₂ _ ih
    · rw [if_neg hq]
      exact List.Sublist.cons _ ih

theorem find_by_id (dms : List SymbolInfo) (hnd : (dms.map SymbolInfo.id).Nodup) :
    ∀ m ∈ dms, dms.find? (fun x => decide (x.id = m.id)) = some m := by
  induction dms with
  | nil => intro m hm; exact absurd hm (List.not_mem_nil m)
  | cons a rest ih =>
    intro m hm
    simp only [List.map_cons, List.nodup_cons] at hnd
    rcases List.mem_cons.1 hm with rfl | hmem
    · rw [List.find?_cons_of_pos _ (by simp)]
    · have hane : a.id ≠ m.id := by
        intro hcon
        exact hnd.1 (hcon ▸ List.mem_map_of_mem SymbolInfo.id hmem)
      rw [List.find?_cons_of_neg _ (by simpa using hane)]
      exact ih hnd.2 m hmem

/-- Resolution of a single `_index` entry inside `find_symbol`: the
(zero-or-one-element) list that the loop body appends to `results`. -/
def entryResolve (fix : Fixture) (name scope : String) (e : IdxEntry) : List SymbolInfo :=
  match lookupDoc fix e.compound_refid with
  | none => []
  | some doc =>
    if e.is_compound then
      let sym : SymbolInfo :=
        { id := e.refid, name := name, kind := e.kind,
          file := (doc.location.map Prod.fst).getD "",
          line := (doc.location.map (fun p => p.2)).getD 0,
          brief := doc.brief }
      if scope ≠ "" ∧ strStarts sym.file scope = false then [] else [sym]
    else
      match doc.members.find? (fun m => decide (m.id = e.refid)) with
      | none => []
      | some m =>
        if scope ≠ "" ∧ strStarts m.file scope = false then [] else [m]

theorem xmlFindSymbol_flat (fix : Fixture) (name scope : String) :
    xmlFindSymbol fix name scope
      = ((entriesFor fix name).map (entryResolve fix name scope)).flatten := by
  unfold xmlFindSymbol
  suffices h : ∀ (es : List IdxEntry) (acc : List SymbolInfo),
      es.foldl (fun results e =>
        match lookupDoc fix e.compound_refid with
        | none => results
        | some doc =>
          if e.is_compound then
            let sym : SymbolInfo :=
              { id := e.refid, name := name, kind := e.kind,
                file := (doc.location.map Prod.fst).getD "",
                line := (doc.location.map (fun p => p.2)).getD 0,
                brief := doc.brief }
            if scope ≠ "" ∧ strStarts sym.file scope = false then results
            else results ++ [sym]
          else
            match doc.members.find? (fun m => decide (m.id = e.refid)) with
            | none => results
            | some m =>
              if scope ≠ "" ∧ strStarts m.file scope = false then results
              else results ++ [m]) acc
        = acc ++ (es.map (entryResolve fix name scope)).flatten by
    simpa using h (entriesFor fix name) []
  intro es
  induction es with
  | nil => intro acc; simp
  | cons e rest ih =>
    intro acc
    rw [List.foldl_cons, List.map_cons, List.flatten_cons]
    have hstep : (match lookupDoc fix e.compound_refid with
        | none => acc
        | some doc =>
          if e.is_compound then
            let sym : SymbolInfo :=
              { id := e.refid, name := name, kind := e.kind,
                file := (doc.location.map Prod.fst).getD "",
                line := (doc.location.map (fun p => p.2)).getD 0,
                brief := doc.brief }
            if scope ≠ "" ∧ strStarts sym.file scope = false then acc
            else acc ++ [sym]
          else
            match doc.members.find? (fun m => decide (m.id = e.refid)) with
            | none => acc
            | some m =>
              if scope ≠ "" ∧ strStarts m.file scope = false then acc
              else acc ++ [m])
        = acc ++ entryResolve fix name scope e := by
      unfold entryResolve
      cases lookupDoc fix e.compound_refid with
      | none => simp
      | some doc =>
        by_cases hc : e.is_compound
        · simp only [hc, if_true]
          split <;> simp
        · simp only [hc, Bool.false_eq_true, if_false]
          cases doc.members.find? (fun m => decide (m.id = e.refid)) with
          | none => simp
          | some m =>
            repeat' split
            all_goals simp
    rw [hstep, ih (acc ++ entryResolve fix name scope e), List.append_assoc]

/-- Faithfulness of `index.xml` to the detail files, true of real Doxygen
output: each compound's detail file exists and lists the same members
(ids and names, in the same order) as the compound's `<member>` entries in
`index.xml`; and compound refids are unique. -/
def mirrors (fix : Fixture) : Prop :=
  (∀ c ∈ fix.compounds,
    (lookupDoc fix c.refid).map (fun doc => doc.members.map (fun m => (m.id, m.name)))
      = some (c.members.map (fun me => (me.refid, me.name)))) ∧
  (fix.compounds.map IndexCompound.refid).Nodup

instance (fix : Fixture) : Decidable (mirrors fix) := by
  unfold mirrors
  infer_instance

theorem entriesFor_join (fix : Fixture) (n : String) :
    entriesFor fix n
      = (fix.compounds.map (fun c =>
          (compoundEntries c).filterMap (fun p => if p.1 = n then some p.2 else none))).flatten := by
  unfold entriesFor xmlIndexEntries
  rw [filterMap_flatten, List.map_map]
  rfl

theorem compound_entries_for_name (c : IndexCompound) (n : String)
    (hname : c.name ≠ n) (h1 : ∀ me ∈ c.members, me.name ≠ "") :
    (compoundEntries c).filterMap (fun p => if p.1 = n then some p.2 else none)
      = c.members.filterMap (fun me =>
          if me.name = n then some (⟨me.refid, me.kind, c.refid, false⟩ : IdxEntry) else none) := by
  unfold compoundEntries
  rw [List.filterMap_append]
  have hhead : ((if c.name ≠ "" then
      [(c.name, (⟨c.refid, c.kind, c.refid, true⟩ : IdxEntry))] else []).filterMap
      (fun p => if p.1 = n then some p.2 else none)) = [] := by
    split
    · simp [hname]
    · rfl
  rw [hhead, List.nil_append, List.filterMap_filterMap]
  apply filterMap_congr_mem
  intro me hme
  have hne : me.name ≠ "" := h1 me hme
  by_cases h : me.name = n
  · subst h
    simp [hne]
  · simp [hne, h]

/-- The memberdefs of a compound's detail file (empty when the file is
missing). -/
def docMembersOf (fix : Fixture) (c : IndexCompound) : List SymbolInfo :=
  match lookupDoc fix c.refid with
  | none => []
  | some doc => doc.members

theorem per_compound_resolution (fix : Fixture) (n : String) (crefid : String)
    (doc : CompoundDoc) (hdoc : lookupDoc fix crefid = some doc)
    (hnd : (doc.members.map SymbolInfo.id).Nodup) :
    ∀ (ems : List MemberEntry) (dms : List SymbolInfo),
      ems.map (fun me => (me.refid, me.name)) = dms.map (fun m => (m.id, m.name)) →
      (∀ m ∈ dms, m ∈ doc.members) →
      ((ems.filterMap (fun me =>
          if me.name = n then some (⟨me.refid, me.kind, crefid, false⟩ : IdxEntry) else none)).map
        (entryResolve fix n "")).flatten
        = dms.filter (fun m => decide (m.name = n)) := by
  intro ems
  induction ems with
  | nil =>
    intro dms hpair _
    cases dms with
    | nil => rfl
    | cons m dms' => simp at hpair
  | cons me ems' ih =>
    intro dms hpair hsub
    cases dms with
    | nil => simp at hpair
    | cons m dms' =>
      simp only [List.map_cons, List.cons.injEq, Prod.mk.injEq] at hpair
      obtain ⟨⟨hid, hname⟩, htail⟩ := hpair
      rw [List.filterMap_cons]
      have hsub' : ∀ x ∈ dms', x ∈ doc.members := fun x hx => hsub x (List.mem_cons_of_mem _ hx)
      by_cases hn : me.name = n
      · rw [if_pos hn, List.map_cons, List.flatten_cons]
        have hres : entryResolve fix n ""
            (⟨me.refid, me.kind, crefid, false⟩ : IdxEntry) = [m] := by
          unfold entryResolve
          rw [hdoc]
          show (match doc.members.find? (fun x => decide (x.id = me.refid)) with
            | none => ([] : List SymbolInfo)
            | some m => if ("" : String) ≠ "" ∧ strStarts m.file "" = false then [] else [m]) = [m]
          rw [hid, find_by_id doc.members hnd m (hsub m (List.mem_cons_self _ _))]
          simp
        rw [hres]
        have hmn : m.name = n := hname ▸ hn
        rw [List.filter_cons_of_pos (by simpa using hmn)]
        rw [ih dms' htail hsub']
        rfl
      · rw [if_neg hn]
        have hmn : ¬ m.name = n := fun hc => hn (hname.symm ▸ hc)
        rw [List.filter_cons_of_neg (by simpa using hmn)]
        exact ih dms' htail hsub'

theorem filterMap_ite_eq_map_filter {α β : Type} (g : α → β) (q : α → Prop) [DecidablePred q] :
    ∀ l : List α, l.filterMap (fun a => if q a then some (g a) else none)
      = (l.filter (fun a => decide (q a))).map g := by
  intro l
  induction l with
  | nil => rfl
  | cons a rest ih =>
    rw [List.filterMap_cons, List.filter_cons]
    by_cases hq : q a
    · rw [if_pos hq, if_pos (by simpa using hq), List.map_cons, ih]
    · rw [if_neg hq, if_neg (by simpa using hq), ih]

theorem flatMap_flatten {α β : Type} (f : α → List β) :
    ∀ ls : List (List α), ((ls.flatten).map f).flatten
      = (ls.map (fun l => ((l.map f).flatten))).flatten := by
  intro ls
  induction ls with
  | nil => rfl
  | cons l rest ih =>
    rw [List.flatten_cons, List.map_append, List.flatten_append, ih, List.map_cons,
      List.flatten_cons]

theorem flatten_filter_of_nil {α β : Type} (f : α → List β) (q : α → Prop) [DecidablePred q] :
    ∀ l : List α, (∀ x ∈ l, ¬ q x → f x = []) →
      (((l.filter (fun x => decide (q x))).map f).flatten = (l.map f).flatten) := by
  intro l
  induction l with
  | nil => intro _; rfl
  | cons a rest ih =>
    intro h
    rw [List.filter_cons]
    by_cases hq : q a
    · rw [if_pos (by simpa using hq), List.map_cons, List.flatten_cons, List.map_cons,
        List.flatten_cons, ih (fun x hx => h x (List.mem_cons_of_mem _ hx))]
    · rw [if_neg (by simpa using hq), List.map_cons, List.flatten_cons,
        h a (List.mem_cons_self _ _) hq, List.nil_append,
        ih (fun x hx => h x (List.mem_cons_of_mem _ hx))]

theorem docStream_eq (fix : Fixture)
    (hnodup : (fix.compounds.map IndexCompound.refid).Nodup) :
    docStream fix (sqlCompoundRefids fix)
      = ((fix.compounds.filter (fun c => decide (c.members ≠ []))).map
          (docMembersOf fix)).flatten := by
  have hC : sqlCompoundRefids fix
      = (fix.compounds.filter (fun c => decide (c.members ≠ []))).map IndexCompound.refid := by
    unfold sqlCompoundRefids dedupFirst
    rw [filterMap_ite_eq_map_filter]
    apply dedupFirstAux_of_nodup
    · exact hnodup.sublist (List.Sublist.map IndexCompound.refid (List.filter_sublist _))
    · simp
  rw [hC]
  unfold docStream
  rw [List.map_map]
  rfl

theorem docMembersOf_nil (fix : Fixture) (c : IndexCompound)
    (hm : (lookupDoc fix c.refid).map (fun doc => doc.members.map (fun m => (m.id, m.name)))
      = some (c.members.map (fun me => (me.refid, me.name))))
    (hnil : c.members = []) : docMembersOf fix c = [] := by
  unfold docMembersOf
  cases hdoc : lookupDoc fix c.refid with
  | none => rfl
  | some doc =>
    rw [hdoc, hnil] at hm
    simp at hm
    show doc.members = []
    exact hm

theorem docMembersOf_nodup (fix : Fixture) (hwf : FixtureWF fix) (hmir : mirrors fix) :
    ∀ c ∈ fix.compounds, ((docMembersOf fix c).map SymbolInfo.id).Nodup := by
  intro c hc
  by_cases hnil : c.members = []
  · rw [docMembersOf_nil fix c (hmir.1 c hc) hnil]
    exact List.nodup_nil
  · have h4 := hwf.2.2.2
    rw [docStream_eq fix hmir.2] at h4
    have hmem : docMembersOf fix c
        ∈ (fix.compounds.filter (fun c => decide (c.members ≠ []))).map (docMembersOf fix) :=
      List.mem_map_of_mem _ (List.mem_filter.2 ⟨hc, by simpa using hnil⟩)
    have hsub : (docMembersOf fix c).Sublist
        ((fix.compounds.filter (fun c => decide (c.members ≠ []))).map
          (docMembersOf fix)).flatten :=
      List.sublist_flatten_of_mem hmem
    exact h4.sublist (hsub.map SymbolInfo.id)

theorem xmlFindSymbol_member_names (fix : Fixture) (n : String) (hwf : FixtureWF fix)
    (hmir : mirrors fix) (hnc : ∀ c ∈ fix.compounds, c.name ≠ n) :
    xmlFindSymbol fix n ""
      = (docStream fix (sqlCompoundRefids fix)).filter (fun m => decide (m.name = n)) := by
  have hL : xmlFindSymbol fix n ""
      = (fix.compounds.map (fun c => (docMembersOf fix c).filter
          (fun m => decide (m.name = n)))).flatten := by
    rw [xmlFindSymbol_flat, entriesFor_join, flatMap_flatten, List.map_map]
    apply congrArg List.flatten
    apply List.map_congr_left
    intro c hc
    show (((compoundEntries c).filterMap
        (fun p => if p.1 = n then some p.2 else none)).map
          (entryResolve fix n "")).flatten = _
    rw [compound_entries_for_name c n (hnc c hc) (hwf.1 c hc)]
    have hm := hmir.1 c hc
    cases hdoc : lookupDoc fix c.refid with
    | none => rw [hdoc] at hm; exact absurd hm (by simp)
    | some doc =>
      rw [hdoc] at hm
      have hm' : doc.members.map (fun m => (m.id, m.name))
          = c.members.map (fun me => (me.refid, me.name)) :=
        Option.some.inj hm
      have hdm : docMembersOf fix c = doc.members := by
        unfold docMembersOf
        rw [hdoc]
      rw [hdm]
      exact per_compound_resolution fix n c.refid doc hdoc
        (by rw [← hdm]; exact docMembersOf_nodup fix hwf hmir c hc)
        c.members doc.members hm'.symm (fun m hm => hm)
  have hR : (docStream fix (sqlCompoundRefids fix)).filter (fun m => decide (m.name = n))
      = ((fix.compounds.filter (fun c => decide (c.members ≠ []))).map
          (fun c => (docMembersOf fix c).filter (fun m => decide (m.name = n)))).flatten := by
    rw [docStream_eq fix hmir.2, filter_flatten, List.map_map]
    rfl
  rw [hL, hR]
  exact (flatten_filter_of_nil
    (fun c => (docMembersOf fix c).filter (fun m => decide (m.name = n)))
    (fun c => c.members ≠ []) fix.compounds
    (fun c hc hq => by
      show (docMembersOf fix c).filter (fun m => decide (m.name = n)) = []
      rw [docMembersOf_nil fix c (hmir.1 c hc) (not_not.1 hq)]
      rfl)).symm

theorem stepLoc_keeps_name (fix : Fixture) (r : SymRow) (p : String × String) :
    (stepLoc fix r p).name = r.name := by
  unfold stepLoc
  repeat' split
  all_goals rfl

theorem foldl_stepLoc_keeps_name (fix : Fixture) (items : List (String × String)) :
    ∀ r : SymRow, (items.foldl (stepLoc fix) r).name = r.name := by
  induction items with
  | nil => intro r; rfl
  | cons p rest ih =>
    intro r
    rw [List.foldl_cons, ih (stepLoc fix r p), stepLoc_keeps_name]

theorem sqlFindSymbol_member_names (fix : Fixture) (n : String) (hwf : FixtureWF fix)
    (hnc : ∀ c ∈ fix.compounds, c.name ≠ n) :
    sqlFindSymbol (buildDb fix) n ""
      = (docStream fix (sqlCompoundRefids fix)).filter (fun m => decide (m.name = n)) := by
  simp only [sqlFindSymbol, ne_eq, not_true_eq_false, if_false]
  rw [(buildDb_decomp fix hwf).1, filter_over_map, List.filter_append]
  have hcomp : (sqlCompoundRows fix).filter
      (fun a => decide (((compoundKindItems fix).foldl (stepLoc fix) a).name = n)) = [] := by
    rw [List.filter_eq_nil_iff]
    intro r hr
    have hQ := sqlCompoundRows_inv fix (fun r => ∃ c ∈ fix.compounds, r.name = c.name)
      (fun c hc => ⟨c, hc, rfl⟩) r hr
    obtain ⟨c, hc, hnm⟩ := hQ
    simp only [foldl_stepLoc_keeps_name, hnm, decide_eq_true_eq]
    exact fun hcon => hnc c hc hcon
  rw [hcomp, List.nil_append, filter_over_map]
  have hpred : (docStream fix (sqlCompoundRefids fix)).filter
      (fun m => decide (((compoundKindItems fix).foldl (stepLoc fix) (memberRowOf m)).name = n))
      = (docStream fix (sqlCompoundRefids fix)).filter (fun m => decide (m.name = n)) := by
    apply List.filter_congr
    intro m hm
    rw [foldl_stepLoc_noop fix (memberRowOf m) (fun c hc => hwf.2.2.1 m hm c hc)]
    rfl
  rw [hpred, List.map_map, List.map_map]
  apply map_self
  intro m hm
  have hm' : m ∈ docStream fix (sqlCompoundRefids fix) := List.mem_of_mem_filter hm
  show rowToSymbol (buildDb fix)
      ((compoundKindItems fix).foldl (stepLoc fix) (memberRowOf m)) = m
  rw [foldl_stepLoc_noop fix (memberRowOf m) (fun c hc => hwf.2.2.1 m hm' c hc)]
  apply rowToSymbol_memberRow
  · rw [(buildDb_decomp fix hwf).2]
    exact stream_refs_filter "calls" SymbolInfo.references refRowsOf_self_calls _ m hm' hwf.2.2.2
  · rw [(buildDb_decomp fix hwf).2]
    exact stream_refs_filter "callers" SymbolInfo.referenced_by refRowsOf_self_callers _ m hm'
      hwf.2.2.2

/-- C1 (amended): for a well-formed fixture (`FixtureWF` — named index member
entries; non-empty, globally unique member ids disjoint from compound
refids; all true of real Doxygen output), the in-memory backend and the
SQLite backend return identical logical results for the member-record query
operations: `get_all_symbols` (identical sets), `get_symbols_in_file`
(identical sets, in fact identical sorted lists), the logical fields of
`get_stats`, and — when the detail documents mirror the index
(`mirrors`) — unscoped `find_symbol` on any name that is not a compound
name (identical lists).  The original claim's "every shared query
operation" is refuted by `backend_members_brief_cex`: operations that
surface compound-record fields — `get_members`, `find_symbol` on compound
names, `get_all_files`, and scoped queries — can differ, because the
SQLite store keeps no brief for compound rows and back-fills locations
only for struct/class/union/namespace compounds. -/
theorem backend_equiv_member_queries (fix : Fixture) (h : FixtureWF fix) :
    (∀ s, s ∈ xmlGetAllSymbols fix "" ↔ s ∈ sqlGetAllSymbols (buildDb fix) "") ∧
    (∀ path s, s ∈ xmlSymbolsInFile fix path ↔ s ∈ sqlSymbolsInFile (buildDb fix) path) ∧
    xmlGetStats fix = sqlGetStats (buildDb fix) ∧
    (∀ n, mirrors fix → (∀ c ∈ fix.compounds, c.name ≠ n) →
      xmlFindSymbol fix n "" = sqlFindSymbol (buildDb fix) n "") := by
  refine ⟨?_, ?_, stats_eq fix h, ?_⟩
  · intro s
    rw [xmlAllSymbols_eq_stream fix h, sqlAllSymbols_eq_stream fix h]
  · intro path s
    rw [symbolsInFile_eq fix h path]
  · intro n hmir hnc
    exact (xmlFindSymbol_member_names fix n h hmir hnc).trans
      (sqlFindSymbol_member_names fix n h hnc).symm

/-- Witness for `backend_equiv_member_queries` on the concrete `cfgFix`,
with the `find_symbol` conjunct instantiated at the member name `port`. -/
theorem backend_equiv_member_queries_witness :
    (portSym ∈ xmlGetAllSymbols cfgFix "" ↔ portSym ∈ sqlGetAllSymbols (buildDb cfgFix) "") ∧
    xmlGetStats cfgFix = sqlGetStats (buildDb cfgFix) ∧
    xmlFindSymbol cfgFix "port" "" = sqlFindSymbol (buildDb cfgFix) "port" "" :=
  ⟨(backend_equiv_member_queries cfgFix (by decide)).1 portSym,
   (backend_equiv_member_queries cfgFix (by decide)).2.2.1,
   (backend_equiv_member_queries cfgFix (by decide)).2.2.2 "port" (by decide) (by decide)⟩
